import Mathlib

/-!
Shallow embedding of the Oracle_Solver engine (hand evaluator and CFR+ solver)
for checking the natural-language specification against the code.

Part 1 embeds `src/engine/src/evaluator.rs`: machine integers (`u8`, `u16`,
`u32`) are modelled as `Nat`; Rust's unsigned subtraction appears only where
the argument order keeps it non-negative on the inputs our theorems quantify
over, and is modelled as truncated `Nat` subtraction.
-/

namespace OracleSolver

/-- Embeds `tables::comb` (evaluator.rs): small binomial coefficients with the
same case structure as the source (`n < k` yields 0, `k > 5` yields 0). -/
def comb (n k : Nat) : Nat :=
  if n < k then 0
  else match k with
    | 0 => 1
    | 1 => n
    | 2 => n * (n - 1) / 2
    | 3 => n * (n - 1) * (n - 2) / 6
    | 4 => n * (n - 1) * (n - 2) * (n - 3) / 24
    | 5 => n * (n - 1) * (n - 2) * (n - 3) * (n - 4) / 120
    | _ => 0

/-- Binary digit sum over the low `fuel` bits, used to embed
`u16::count_ones`. -/
def popcountAux : Nat → Nat → Nat
  | 0, _ => 0
  | f + 1, m => m % 2 + popcountAux f (m / 2)

/-- Embeds `u16::count_ones` on a 16-bit value: the number of set bits among
the 16 low bit positions. -/
def popcount (m : Nat) : Nat :=
  popcountAux 16 m

/-- The set bits of a 13-bit mask listed from high (rank 12) down to low
(rank 0), as collected by the descending bit loop of `compute_flush_rank`. -/
def bitsDesc (m : Nat) : List Nat :=
  ((List.range 13).reverse).filter (fun i => m.testBit i)

/-- The combinatorial-number-system index of a 5-bit mask, as computed at the
end of `compute_flush_rank`: `C(b0,5)+C(b1,4)+C(b2,3)+C(b3,2)+C(b4,1)` over
the descending bit list. -/
def cnsIdx (m : Nat) : Nat :=
  let bs := bitsDesc m
  comb (bs.getD 0 0) 5 + comb (bs.getD 1 0) 4 + comb (bs.getD 2 0) 3 +
    comb (bs.getD 3 0) 2 + comb (bs.getD 4 0) 1

/-- Embeds `tables::compute_flush_rank` (evaluator.rs lines 512-538): wheel
straight flush yields 10; a straight-flush window `0x1F << i` (scanned with
`high = i + 4` ascending from 4 to 12) yields 1 for the ace-high window and
`14 - (high + 1)` otherwise; any other 5-bit mask is ranked by
`323 + (1286 - idx) * 1276 / 1286` over its CNS index. -/
def compute_flush_rank (m : Nat) : Nat :=
  if m = 4111 then 10
  else
    match (List.range 9).find? (fun i => m = 31 <<< i) with
    | some i => if i + 5 = 13 then 1 else 14 - (i + 5)
    | none => 323 + (1286 - cnsIdx m) * 1276 / 1286

/-- Embeds the `FLUSH_TABLE` contents built by `get_flush_table`: entries at
masks with exactly five set bits hold `compute_flush_rank`; all other entries
stay 0. -/
def flushTableEntry (m : Nat) : Nat :=
  if popcount m = 5 then compute_flush_rank m else 0

/-- Embeds the `while mask.count_ones() > 5 { mask &= mask - 1 }` loop of
`best_flush_hand_7`, with fuel 16 (a `u16` has at most 16 set bits, so the
source loop runs at most 11 times). -/
def keepTop5 : Nat → Nat → Nat
  | 0, m => m
  | fuel + 1, m => if 5 < popcount m then keepTop5 fuel (m &&& (m - 1)) else m

/-- Embeds `tables::best_flush_hand_7` (evaluator.rs lines 219-241): scan
straight-flush windows from ace-high down (subset test against the 7-card
suit mask), then the wheel, then keep the top five bits and look the result
up in the flush table. -/
def best_flush_hand_7 (m : Nat) : Nat :=
  match ((List.range 9).reverse).find? (fun i => m &&& (31 <<< i) = 31 <<< i) with
  | some i => flushTableEntry (31 <<< i)
  | none =>
    if m &&& 4111 = 4111 then flushTableEntry 4111
    else flushTableEntry (keepTop5 16 m)

/-- Embeds `rank_four_of_a_kind` (evaluator.rs lines 450-455). -/
def rank_four_of_a_kind (quad kicker : Nat) : Nat :=
  11 + (12 - quad) * 12 + ((12 - kicker) - (if kicker < quad then 1 else 0))

/-- Embeds `rank_full_house` (evaluator.rs lines 457-462). -/
def rank_full_house (trips pair : Nat) : Nat :=
  167 + (12 - trips) * 12 + ((12 - pair) - (if pair < trips then 1 else 0))

/-- Embeds `rank_three_of_a_kind` (evaluator.rs lines 464-471). -/
def rank_three_of_a_kind (trips k1 k2 : Nat) : Nat :=
  let adj := fun k => k - (if trips < k then 1 else 0)
  let hi := if k2 < k1 then k1 else k2
  let lo := if k2 < k1 then k2 else k1
  let inner := comb (adj hi) 2 + comb (adj lo) 1
  1610 + (12 - trips) * 66 + (65 - inner)

/-- Embeds `rank_two_pair` (evaluator.rs lines 473-478): note the source
clamps `12 - kicker` to at most 10 instead of remapping the kicker to its
ordinal among the eleven remaining ranks. -/
def rank_two_pair (high_pair low_pair kicker : Nat) : Nat :=
  let combo := comb high_pair 2 + comb low_pair 1
  let base := 2468 + (77 - combo) * 11
  base + min (12 - kicker) 10

/-- Embeds `rank_one_pair` (evaluator.rs lines 480-490): the three kickers are
sorted descending, remapped past the pair rank, and CNS-indexed. -/
def rank_one_pair (pair k1 k2 k3 : Nat) : Nat :=
  let a := max k1 (max k2 k3)
  let c := min k1 (min k2 k3)
  let b := k1 + k2 + k3 - a - c
  let adj := fun k => k - (if pair < k then 1 else 0)
  let kc := comb (adj a) 3 + comb (adj b) 2 + comb (adj c) 1
  3326 + (12 - pair) * 220 + (219 - kc)

/-- Embeds `rank_high_card` (evaluator.rs lines 506-509). -/
def rank_high_card (c1 c2 c3 c4 c5 : Nat) : Nat :=
  let index := comb c1 5 + comb c2 4 + comb c3 3 + comb c4 2 + comb c5 1
  min (6186 + (1286 - index)) 7462

/-- State of the single descending classification scan in
`best_nonflush_hand_7`: 255 is the source's "not set" sentinel; `pairs` and
`singles` are the filled prefixes of the source's fixed arrays, in push
order. -/
structure ScanSt where
  quad : Nat
  trips : Nat
  pairs : List Nat
  singles : List Nat
  deriving Repr, DecidableEq

/-- The initial scan state (all sentinels, no pairs or singles collected). -/
def scanInit : ScanSt := ⟨255, 255, [], []⟩

/-- One step of the descending scan of `best_nonflush_hand_7` at rank `i`
with card count `c`: quads overwrite `quad`; the first trips rank is kept,
later trips ranks are pushed as pairs; pairs and singles are pushed subject
to the source's array-capacity guards. -/
def scanStep (c i : Nat) (s : ScanSt) : ScanSt :=
  if c = 4 then { s with quad := i }
  else if c = 3 then
    (if s.trips = 255 then { s with trips := i }
     else if s.pairs.length < 3 then { s with pairs := s.pairs ++ [i] } else s)
  else if c = 2 then
    (if s.pairs.length < 3 then { s with pairs := s.pairs ++ [i] } else s)
  else if c = 1 then
    (if s.singles.length < 7 then { s with singles := s.singles ++ [i] } else s)
  else s

/-- The descending scan `for i in (0..13).rev()`: `scanDown counts k s`
processes ranks `k-1` down to `0`. -/
def scanDown (counts : List Nat) : Nat → ScanSt → ScanSt
  | 0, s => s
  | k + 1, s => scanDown counts k (scanStep (counts.getD k 0) k s)

/-- Embeds `best_kicker_excluding` (evaluator.rs lines 363-377). -/
def best_kicker_excluding (trips : Nat) (pairs singles : List Nat) : Nat :=
  let b0 := 0
  let b1 := if trips ≠ 255 ∧ b0 < trips then trips else b0
  let p0 := pairs.getD 0 255
  let b2 := if 0 < pairs.length ∧ p0 ≠ 255 ∧ b1 < p0 then p0 else b1
  let s0 := singles.getD 0 255
  if 0 < singles.length ∧ s0 ≠ 255 ∧ b2 < s0 then s0 else b2

/-- The rank-presence bitmask built inside the straight check of
`best_nonflush_hand_7`: bit `i` is set iff `rank_counts[i] > 0`. -/
def rankPresent (counts : List Nat) : Nat :=
  (List.range 13).foldl (fun acc i => if 0 < counts.getD i 0 then acc ||| (1 <<< i) else acc) 0

/-- Embeds `tables::best_nonflush_hand_7` (evaluator.rs lines 247-359):
classify the 13-entry rank-count array with one descending scan, then
dispatch quads, full house, straight (windows ace-high down, then the
wheel), trips, two pair, one pair and high card in the source's priority
order. -/
def best_nonflush_hand_7 (counts : List Nat) : Nat :=
  let s := scanDown counts 13 scanInit
  if s.quad ≠ 255 then
    rank_four_of_a_kind s.quad (best_kicker_excluding s.trips s.pairs s.singles)
  else if s.trips ≠ 255 ∧ 0 < s.pairs.length then
    rank_full_house s.trips (s.pairs.getD 0 255)
  else
    let rp := rankPresent counts
    match ((List.range 9).reverse).find? (fun i => rp &&& (31 <<< i) = 31 <<< i) with
    | some i => if i + 5 = 13 then 1600 else 1600 + (8 - i)
    | none =>
      if rp &&& 4111 = 4111 then 1609
      else if s.trips ≠ 255 then
        let k1 := s.singles.getD 0 255
        let k2 := if 2 ≤ s.singles.length then s.singles.getD 1 255 else 255
        rank_three_of_a_kind s.trips k1 k2
      else if 2 ≤ s.pairs.length then
        let hp := s.pairs.getD 0 255
        let lp := s.pairs.getD 1 255
        let kicker :=
          if 3 ≤ s.pairs.length then
            let tp := s.pairs.getD 2 255
            let bs := s.singles.getD 0 255
            if bs ≠ 255 ∧ tp < bs then bs else tp
          else s.singles.getD 0 255
        rank_two_pair hp lp kicker
      else if s.pairs.length = 1 then
        let k1 := s.singles.getD 0 255
        let k2 := if 2 ≤ s.singles.length then s.singles.getD 1 255 else 0
        let k3 := if 3 ≤ s.singles.length then s.singles.getD 2 255 else 0
        rank_one_pair (s.pairs.getD 0 255) k1 k2 k3
      else
        rank_high_card (s.singles.getD 0 255) (s.singles.getD 1 255)
          (s.singles.getD 2 255) (s.singles.getD 3 255) (s.singles.getD 4 255)

/-- The suit mask accumulated by the single pass of `evaluate_7cards`:
bit `v % 13` is set for every card `v` of suit `s = v / 13`. -/
def suitMask (cards : List Nat) (s : Nat) : Nat :=
  cards.foldl (fun acc v => if v / 13 = s then acc ||| (1 <<< (v % 13)) else acc) 0

/-- The rank-count array built by the single pass of `evaluate_7cards`:
entry `r` counts the cards with `v % 13 = r`. -/
def rankCounts (cards : List Nat) : List Nat :=
  (List.range 13).map (fun r => cards.countP (fun v => v % 13 = r))

/-- Embeds `CactusKevEvaluator::evaluate_7cards` (evaluator.rs lines 30-45):
concatenate board and hand, build suit masks and rank counts, take the flush
path on the first suit with five or more cards, else the non-flush path. -/
def evaluate_7cards (board hand : List Nat) : Nat :=
  let all := board ++ hand
  match (List.range 4).find? (fun s => 5 ≤ popcount (suitMask all s)) with
  | some s => best_flush_hand_7 (suitMask all s)
  | none => best_nonflush_hand_7 (rankCounts all)

/-- Embeds the scalar fallback loop of `evaluate_batch` (evaluator.rs lines
114-121): one `evaluate_7cards` per index in order. -/
def evaluate_batch_scalar (boards hands : List (List Nat)) : List Nat :=
  (List.range boards.length).map (fun i => evaluate_7cards (boards.getD i []) (hands.getD i []))

/-- Embeds `neon::evaluate_batch_neon` (evaluator.rs lines 551-559): zip the
two sequences and evaluate each pair with the scalar path. -/
def evaluate_batch_neon (boards hands : List (List Nat)) : List Nat :=
  (boards.zip hands).map (fun bh => evaluate_7cards bh.1 bh.2)

/-- A valid 7-card input: five board cards and two hole cards, all distinct,
all in the card domain 0-51. -/
def ValidInput (board hand : List Nat) : Prop :=
  board.length = 5 ∧ hand.length = 2 ∧ (board ++ hand).Nodup ∧
    ∀ v ∈ board ++ hand, v < 52

instance (board hand : List Nat) : Decidable (ValidInput board hand) := by
  unfold ValidInput; infer_instance

/-- Balanced exhaustive checker: `checkPow f k lo` tests `f` on the `2 ^ k`
values starting at `lo`, by halving (so kernel evaluation stays shallow). -/
def checkPow (f : Nat → Bool) : Nat → Nat → Bool
  | 0, lo => f lo
  | k + 1, lo => checkPow f k lo && checkPow f k (lo + 2 ^ k)

/-- A 13-bit mask that matches a straight-flush window: the wheel pattern or
one of the nine 5-consecutive-bit windows. -/
def isSFMask (m : Nat) : Bool :=
  decide (m = 4111) || (List.range 9).any (fun i => m = 31 <<< i)

/-- Per-mask facts checked exhaustively over all 13-bit masks: every 5-bit
non-straight-flush mask gets a flush rank in 323-1598, and clearing low bits
of a mask with at least five set bits stops at exactly five. -/
def maskFact (m : Nat) : Bool :=
  (!(popcount m = 5) || isSFMask m ||
    (decide (323 ≤ compute_flush_rank m) && decide (compute_flush_rank m ≤ 1598))) &&
  (!(5 ≤ popcount m) || decide (popcount (keepTop5 16 m) = 5))

/-!
Part 2 embeds `src/engine/src/cfr.rs` and the fixture trees of
`src/engine/src/test_tree.rs`. `f64` arithmetic is embedded as exact
rational arithmetic; `HashMap` lookups as association-list lookups
returning `Option` (a missing key panics in the source and is `none`
here); the rayon parallel iteration at chance nodes as the sequential
order-preserving map it is deterministically equivalent to. Node payload
fields never read by the solver (street, pot, stacks, board, bet
sequence, parent, folder, hole cards) are omitted. Recursion carries
explicit fuel; on well-formed trees (children ids strictly above the
parent id) fuel `tree.nodes.length` reproduces the source behaviour.
-/

/-- Embeds `node::Player`. -/
inductive Player where
  | IP : Player
  | OOP : Player
  deriving Repr, DecidableEq

/-- Embeds `node::Action`, with bet sizes as rationals. -/
inductive GAction where
  | fold : GAction
  | check : GAction
  | call : GAction
  | bet : ℚ → GAction
  deriving Repr, DecidableEq

/-- Embeds `node::Node`, restricted to the fields the solver reads. -/
inductive Node where
  | decision (id infoset_id : Nat) (player : Player) (children : List Nat)
      (actions : List GAction) : Node
  | chance (id : Nat) (children : List Nat) : Node
  | terminal (id : Nat) : Node
  deriving Repr, DecidableEq

/-- Embeds `Node::id`. -/
def Node.nid : Node → Nat
  | Node.decision i _ _ _ _ => i
  | Node.chance i _ => i
  | Node.terminal i => i

/-- Embeds `GameTree`: a flat array of nodes indexed by node id. -/
structure GameTree where
  nodes : List Node
  deriving Repr, DecidableEq

/-- Embeds `GameTree::get`. -/
def GameTree.get (tree : GameTree) (i : Nat) : Option Node :=
  tree.nodes.get? i

/-- Embeds `RegretStorage`: parallel ragged arrays of cumulative regrets and
strategy sums. -/
structure RegretStorage where
  regrets : List (List ℚ)
  strategy_sums : List (List ℚ)
  deriving Repr, DecidableEq

/-- Embeds `RegretStorage::new` (cfr.rs lines 31-41): one zero row per node,
sized by that node's action count. -/
def RegretStorage.new (_num_nodes : Nat) (actions_per_node : List Nat) : RegretStorage :=
  { regrets := actions_per_node.map (fun n => List.replicate n 0),
    strategy_sums := actions_per_node.map (fun n => List.replicate n 0) }

/-- Embeds `RegretStorage::current_strategy` (cfr.rs lines 45-53):
regret-matching+, uniform when no positive regret. -/
def RegretStorage.current_strategy (st : RegretStorage) (infoset_id : Nat) : List ℚ :=
  let r := st.regrets.getD infoset_id []
  let pos_sum := (r.map (fun x => max x 0)).sum
  if pos_sum ≤ 0 then List.replicate r.length (1 / (r.length : ℚ))
  else r.map (fun x => max x 0 / pos_sum)

/-- Embeds `RegretStorage::average_strategy` (cfr.rs lines 56-64). -/
def RegretStorage.average_strategy (st : RegretStorage) (infoset_id : Nat) : List ℚ :=
  let s := st.strategy_sums.getD infoset_id []
  let total := s.sum
  if total ≤ 0 then List.replicate s.length (1 / (s.length : ℚ))
  else s.map (fun x => x / total)

/-- The in-place loop body of `update_regrets`: `zip`-limited pointwise
`max(0, r + cf)`, entries beyond the zipped prefix unchanged. -/
def updateRow : List ℚ → List ℚ → List ℚ
  | r, [] => r
  | [], _ => []
  | ri :: rs, cf :: cfs => max (ri + cf) 0 :: updateRow rs cfs

/-- Embeds `RegretStorage::update_regrets` (cfr.rs lines 68-73): the CFR+
floored regret update on row `infoset_id`. -/
def RegretStorage.update_regrets (st : RegretStorage) (infoset_id : Nat)
    (cf_values : List ℚ) : RegretStorage :=
  { st with regrets :=
      st.regrets.set infoset_id (updateRow (st.regrets.getD infoset_id []) cf_values) }

/-- The in-place loop body of `accumulate_strategy`: pointwise
`s += weight * prob` over the zipped prefix. -/
def accRow (weight : ℚ) : List ℚ → List ℚ → List ℚ
  | s, [] => s
  | [], _ => []
  | si :: ss, p :: ps => (si + weight * p) :: accRow weight ss ps

/-- Embeds `RegretStorage::accumulate_strategy` (cfr.rs lines 76-82):
linearly weighted strategy accumulation on row `infoset_id`. -/
def RegretStorage.accumulate_strategy (st : RegretStorage) (infoset_id : Nat)
    (strategy : List ℚ) (iteration : Nat) : RegretStorage :=
  { st with strategy_sums :=
      (st.strategy_sums.set infoset_id
        (accRow (iteration : ℚ) (st.strategy_sums.getD infoset_id []) strategy)) }

/-- Embeds the `RegretUpdate` record collected during traversal. -/
structure RegretUpdate where
  infoset_id : Nat
  cf_values : List ℚ
  strategy : List ℚ
  weight : Nat
  deriving Repr, DecidableEq

/-- Association-list lookup embedding the `HashMap<NodeId, f64>` read
`terminal_evs[&node_id]` (first match wins; `none` is the missing key). -/
def lookupEv : List (Nat × ℚ) → Nat → Option ℚ
  | [], _ => none
  | (k, v) :: rest, i => if k = i then some v else lookupEv rest i

/-- The Decision-arm child loop of `cfr_traverse_fn`: recurse into each child
with the acting player's reach multiplied by the child's strategy
probability (the other reach unchanged), collecting child EVs in order and
concatenating child updates. -/
def goChildren (rec : Nat → ℚ → ℚ → Option (ℚ × List RegretUpdate))
    (player : Player) (reach_ip reach_oop : ℚ) :
    List (Nat × ℚ) → Option (List ℚ × List RegretUpdate)
  | [] => some ([], [])
  | (c, p) :: rest =>
    match rec c (if player = Player.IP then reach_ip * p else reach_ip)
        (if player = Player.IP then reach_oop else reach_oop * p) with
    | none => none
    | some (ev, us) =>
      match goChildren rec player reach_ip reach_oop rest with
      | none => none
      | some (evs, uss) => some (ev :: evs, us ++ uss)

/-- The Chance-arm child loop of `cfr_traverse_fn` (a rayon parallel map in
the source, which concatenates per-child results in fixed child order). -/
def goChance (rec : Nat → ℚ → ℚ → Option (ℚ × List RegretUpdate))
    (reach_ip reach_oop : ℚ) :
    List Nat → Option (List ℚ × List RegretUpdate)
  | [] => some ([], [])
  | c :: rest =>
    match rec c reach_ip reach_oop with
    | none => none
    | some (ev, us) =>
      match goChance rec reach_ip reach_oop rest with
      | none => none
      | some (evs, uss) => some (ev :: evs, us ++ uss)

/-- Embeds `cfr_traverse_fn` (cfr.rs lines 130-213). Terminal nodes return
the utility-table entry (`none` embeds the panic on a missing key or an
invalid node id); Decision nodes recurse under the current strategy, compute
the node value from IP's perspective, the per-action counterfactual values,
and append their own update record after the children's; Chance nodes
average child values uniformly and concatenate child updates. -/
def cfr_traverse (tree : GameTree) (terminal_evs : List (Nat × ℚ))
    (storage : RegretStorage) (t : Nat) :
    Nat → Nat → ℚ → ℚ → Option (ℚ × List RegretUpdate)
  | 0, _, _, _ => none
  | fuel + 1, node_id, reach_ip, reach_oop =>
    match tree.get node_id with
    | none => none
    | some (Node.terminal _) =>
      match lookupEv terminal_evs node_id with
      | none => none
      | some ev => some (ev, [])
    | some (Node.decision _ infoset player children _) =>
      let strategy := storage.current_strategy infoset
      match goChildren (fun c rI rO => cfr_traverse tree terminal_evs storage t fuel c rI rO)
          player reach_ip reach_oop (children.zip strategy) with
      | none => none
      | some (child_evs, updates) =>
        let node_value := ((strategy.zip child_evs).map (fun se => se.1 * se.2)).sum
        let cf_values := child_evs.map (fun ev =>
          if player = Player.IP then reach_oop * (ev - node_value)
          else reach_ip * (node_value - ev))
        some (node_value, updates ++ [⟨infoset, cf_values, strategy, t⟩])
    | some (Node.chance _ children) =>
      match goChance (fun c rI rO => cfr_traverse tree terminal_evs storage t fuel c rI rO)
          reach_ip reach_oop children with
      | none => none
      | some (child_evs, updates) =>
        some (child_evs.sum / (children.length : ℚ), updates)

/-- One step of the `actions_per_node` loop of `CfrSolver::new_with_evs`:
a decision node overwrites the slot at its own id with its action count. -/
def apnStep (apn : List Nat) (n : Node) : List Nat :=
  match n with
  | Node.decision i _ _ _ actions => apn.set i actions.length
  | _ => apn

/-- The `actions_per_node` vector built by `CfrSolver::new_with_evs`
(cfr.rs lines 233-238): zero everywhere, overwritten at each decision node's
own id with its action count. -/
def actionsPerNode (tree : GameTree) : List Nat :=
  tree.nodes.foldl apnStep (List.replicate tree.nodes.length 0)

/-- Embeds `CfrSolver`. -/
structure CfrSolver where
  tree : GameTree
  storage : RegretStorage
  iteration : Nat
  terminal_evs : List (Nat × ℚ)
  deriving Repr, DecidableEq

/-- Embeds `terminal_ev_table` (test_tree.rs lines 160-168): the hardcoded
terminal utilities of the 9-node test tree, from IP's perspective. -/
def terminal_ev_table : List (Nat × ℚ) := [(2, 1), (4, 5), (5, 2), (7, -5), (8, -1)]

/-- Embeds `CfrSolver::new_with_evs` (cfr.rs lines 231-241). -/
def CfrSolver.new_with_evs (tree : GameTree) (terminal_evs : List (Nat × ℚ)) : CfrSolver :=
  { tree := tree,
    storage := RegretStorage.new tree.nodes.length (actionsPerNode tree),
    iteration := 0,
    terminal_evs := terminal_evs }

/-- Embeds the one-argument `CfrSolver::new` (cfr.rs lines 225-227), which
always installs the hardcoded test terminal utility table. -/
def CfrSolver.new (tree : GameTree) : CfrSolver :=
  CfrSolver.new_with_evs tree terminal_ev_table

/-- The sequential apply phase of `run_iteration` (cfr.rs lines 260-263):
per update record, a regret update then a strategy accumulation. -/
def applyUpdates (storage : RegretStorage) : List RegretUpdate → RegretStorage
  | [] => storage
  | u :: rest =>
    applyUpdates
      ((storage.update_regrets u.infoset_id u.cf_values).accumulate_strategy
        u.infoset_id u.strategy u.weight)
      rest

/-- Embeds `CfrSolver::run_iteration` (cfr.rs lines 248-264): increment the
iteration counter, traverse from the root with unit reaches (fuel
`tree.nodes.length` reproduces the source recursion on well-formed trees),
then apply the collected updates sequentially. -/
def CfrSolver.run_iteration (s : CfrSolver) : Option CfrSolver :=
  let t := s.iteration + 1
  match cfr_traverse s.tree s.terminal_evs s.storage t s.tree.nodes.length 0 1 1 with
  | none => none
  | some (_, updates) =>
    some { s with iteration := t, storage := applyUpdates s.storage updates }

/-- Runs `run_iteration` a given number of times (the driver loop). -/
def solverIterate : Nat → CfrSolver → Option CfrSolver
  | 0, s => some s
  | n + 1, s =>
    match s.run_iteration with
    | none => none
    | some s2 => solverIterate n s2

/-- Embeds `build_test_tree` (test_tree.rs lines 29-156): the 9-node flop
tree (payload fields not read by the solver omitted). -/
def build_test_tree : GameTree :=
  { nodes :=
      [Node.decision 0 0 Player.OOP [1, 6] [GAction.check, GAction.bet 5],
       Node.decision 1 1 Player.IP [2, 3] [GAction.check, GAction.bet 5],
       Node.terminal 2,
       Node.decision 3 3 Player.OOP [4, 5] [GAction.fold, GAction.call],
       Node.terminal 4,
       Node.terminal 5,
       Node.decision 6 6 Player.IP [7, 8] [GAction.fold, GAction.call],
       Node.terminal 7,
       Node.terminal 8] }

/-- The spec's node-value formula (section 4.2): `v = sum of sigma[a] * ev_a`
from IP's perspective. -/
def nodeValueSpec (strategy child_evs : List ℚ) : ℚ :=
  ((strategy.zip child_evs).map (fun se => se.1 * se.2)).sum

/-- The spec's counterfactual-value formula (section 4.2): for IP,
`cf[a] = reach_OOP * (ev_a - v)`; for OOP, `cf[a] = reach_IP * (v - ev_a)`. -/
def cfValuesSpec (player : Player) (reach_ip reach_oop v : ℚ)
    (child_evs : List ℚ) : List ℚ :=
  child_evs.map (fun ev =>
    if player = Player.IP then reach_oop * (ev - v) else reach_ip * (v - ev))

/-- Modelled from the spec: the pre-order listing of decision-node infosets
(spec section 5: "the canonical order is the pre-order traversal order of
decision nodes"), with the same fuel convention as the traversal. -/
def preOrderInfosets (tree : GameTree) : Nat → Nat → List Nat
  | 0, _ => []
  | fuel + 1, node_id =>
    match tree.get node_id with
    | some (Node.decision _ infoset _ children _) =>
      infoset :: children.flatMap (preOrderInfosets tree fuel)
    | some (Node.chance _ children) => children.flatMap (preOrderInfosets tree fuel)
    | _ => []

/-- The post-order listing of decision-node infosets: children first, then
the node itself. -/
def postOrderInfosets (tree : GameTree) : Nat → Nat → List Nat
  | 0, _ => []
  | fuel + 1, node_id =>
    match tree.get node_id with
    | some (Node.decision _ infoset _ children _) =>
      children.flatMap (postOrderInfosets tree fuel) ++ [infoset]
    | some (Node.chance _ children) => children.flatMap (postOrderInfosets tree fuel)
    | _ => []

/-- Per-node check that the storage row addressed by a decision node's
infoset id has one entry per child. -/
def widthsOkAt (tree : GameTree) (storage : RegretStorage) (i : Nat) : Bool :=
  match tree.get i with
  | some (Node.decision _ infoset _ children _) =>
    decide ((storage.regrets.getD infoset []).length = children.length)
  | _ => true

/-- Storage rows match the tree's decision fan-out: at every decision node,
the regret row addressed by its infoset id has one entry per child. -/
def WidthsMatch (tree : GameTree) (storage : RegretStorage) : Prop :=
  ∀ i, i < tree.nodes.length → widthsOkAt tree storage i = true

/-- A fueled reachability check: some terminal reachable from `node_id` is
missing from the utility table. -/
def hasMissingTerminal (tree : GameTree) (terminal_evs : List (Nat × ℚ)) :
    Nat → Nat → Bool
  | 0, _ => false
  | fuel + 1, node_id =>
    match tree.get node_id with
    | some (Node.terminal _) => (lookupEv terminal_evs node_id).isNone
    | some (Node.decision _ _ _ children _) =>
      children.any (hasMissingTerminal tree terminal_evs fuel)
    | some (Node.chance _ children) =>
      children.any (hasMissingTerminal tree terminal_evs fuel)
    | none => false

/-- Per-node well-formedness check: the node's id is its position, decision
infoset ids equal node ids, and decision nodes have one action per child. -/
def wfOkAt (tree : GameTree) (i : Nat) : Bool :=
  match tree.get i with
  | some (Node.decision j infoset _ children actions) =>
    decide (j = i) && decide (infoset = i) && decide (actions.length = children.length)
  | some (Node.chance j _) => decide (j = i)
  | some (Node.terminal j) => decide (j = i)
  | none => true

/-- Well-formed trees in the sense required by the solver constructor
(spec section 6): each node's id is its position, decision infoset ids equal
node ids, and each decision node has one action per child. -/
def WfTree (tree : GameTree) : Prop :=
  ∀ i, i < tree.nodes.length → wfOkAt tree i = true

instance (tree : GameTree) (storage : RegretStorage) :
    Decidable (WidthsMatch tree storage) := by
  unfold WidthsMatch; infer_instance

instance (tree : GameTree) : Decidable (WfTree tree) := by
  unfold WfTree; infer_instance

end OracleSolver

namespace OracleSolver

theorem checkPow_spec (f : Nat → Bool) :
    ∀ k lo, checkPow f k lo = true → ∀ i, i < 2 ^ k → f (lo + i) = true := by
  intro k
  induction k with
  | zero =>
    intro lo h i hi
    interval_cases i
    simpa [checkPow] using h
  | succ k ih =>
    intro lo h i hi
    rw [checkPow, Bool.and_eq_true] at h
    by_cases hcase : i < 2 ^ k
    · exact ih lo h.1 i hcase
    · have h2 : i - 2 ^ k < 2 ^ k := by
        have := Nat.pow_succ 2 k
        omega

      have hv := ih (lo + 2 ^ k) h.2 (i - 2 ^ k) h2
      have harr : lo + 2 ^ k + (i - 2 ^ k) = lo + i := by omega
      rwa [harr] at hv

theorem checkPow_succ (f : Nat → Bool) (k lo : Nat) :
    checkPow f (k + 1) lo = (checkPow f k lo && checkPow f k (lo + 2 ^ k)) := rfl

set_option maxRecDepth 4000 in
set_option maxHeartbeats 12000000 in
theorem maskFact_c8_0 : checkPow maskFact 8 0 = true := by decide

set_option maxRecDepth 4000 in
set_option maxHeartbeats 12000000 in
theorem maskFact_c8_1 : checkPow maskFact 8 256 = true := by decide

set_option maxRecDepth 4000 in
set_option maxHeartbeats 12000000 in
theorem maskFact_c8_2 : checkPow maskFact 8 512 = true := by decide

set_option maxRecDepth 4000 in
set_option maxHeartbeats 12000000 in
theorem maskFact_c8_3 : checkPow maskFact 8 768 = true := by decide

set_option maxRecDepth 4000 in
set_option maxHeartbeats 12000000 in
theorem maskFact_c8_4 : checkPow maskFact 8 1024 = true := by decide

set_option maxRecDepth 4000 in
set_option maxHeartbeats 12000000 in
theorem maskFact_c8_5 : checkPow maskFact 8 1280 = true := by decide

set_option maxRecDepth 4000 in
set_option maxHeartbeats 12000000 in
theorem maskFact_c8_6 : checkPow maskFact 8 1536 = true := by decide

set_option maxRecDepth 4000 in
set_option maxHeartbeats 12000000 in
theorem maskFact_c8_7 : checkPow maskFact 8 1792 = true := by decide

set_option maxRecDepth 4000 in
set_option maxHeartbeats 12000000 in
theorem maskFact_c8_8 : checkPow maskFact 8 2048 = true := by decide

set_option maxRecDepth 4000 in
set_option maxHeartbeats 12000000 in
theorem maskFact_c8_9 : checkPow maskFact 8 2304 = true := by decide

set_option maxRecDepth 4000 in
set_option maxHeartbeats 12000000 in
theorem maskFact_c8_10 : checkPow maskFact 8 2560 = true := by decide

set_option maxRecDepth 4000 in
set_option maxHeartbeats 12000000 in
theorem maskFact_c8_11 : checkPow maskFact 8 2816 = true := by decide

set_option maxRecDepth 4000 in
set_option maxHeartbeats 12000000 in
theorem maskFact_c8_12 : checkPow maskFact 8 3072 = true := by decide

set_option maxRecDepth 4000 in
set_option maxHeartbeats 12000000 in
theorem maskFact_c8_13 : checkPow maskFact 8 3328 = true := by decide

set_option maxRecDepth 4000 in
set_option maxHeartbeats 12000000 in
theorem maskFact_c8_14 : checkPow maskFact 8 3584 = true := by decide

set_option maxRecDepth 4000 in
set_option maxHeartbeats 12000000 in
theorem maskFact_c8_15 : checkPow maskFact 8 3840 = true := by decide

set_option maxRecDepth 4000 in
set_option maxHeartbeats 12000000 in
theorem maskFact_c8_16 : checkPow maskFact 8 4096 = true := by decide

set_option maxRecDepth 4000 in
set_option maxHeartbeats 12000000 in
theorem maskFact_c8_17 : checkPow maskFact 8 4352 = true := by decide

set_option maxRecDepth 4000 in
set_option maxHeartbeats 12000000 in
theorem maskFact_c8_18 : checkPow maskFact 8 4608 = true := by decide

set_option maxRecDepth 4000 in
set_option maxHeartbeats 12000000 in
theorem maskFact_c8_19 : checkPow maskFact 8 4864 = true := by decide

set_option maxRecDepth 4000 in
set_option maxHeartbeats 12000000 in
theorem maskFact_c8_20 : checkPow maskFact 8 5120 = true := by decide

set_option maxRecDepth 4000 in
set_option maxHeartbeats 12000000 in
theorem maskFact_c8_21 : checkPow maskFact 8 5376 = true := by decide

set_option maxRecDepth 4000 in
set_option maxHeartbeats 12000000 in
theorem maskFact_c8_22 : checkPow maskFact 8 5632 = true := by decide

set_option maxRecDepth 4000 in
set_option maxHeartbeats 12000000 in
theorem maskFact_c8_23 : checkPow maskFact 8 5888 = true := by decide

set_option maxRecDepth 4000 in
set_option maxHeartbeats 12000000 in
theorem maskFact_c8_24 : checkPow maskFact 8 6144 = true := by decide

set_option maxRecDepth 4000 in
set_option maxHeartbeats 12000000 in
theorem maskFact_c8_25 : checkPow maskFact 8 6400 = true := by decide

set_option maxRecDepth 4000 in
set_option maxHeartbeats 12000000 in
theorem maskFact_c8_26 : checkPow maskFact 8 6656 = true := by decide

set_option maxRecDepth 4000 in
set_option maxHeartbeats 12000000 in
theorem maskFact_c8_27 : checkPow maskFact 8 6912 = true := by decide

set_option maxRecDepth 4000 in
set_option maxHeartbeats 12000000 in
theorem maskFact_c8_28 : checkPow maskFact 8 7168 = true := by decide

set_option maxRecDepth 4000 in
set_option maxHeartbeats 12000000 in
theorem maskFact_c8_29 : checkPow maskFact 8 7424 = true := by decide

set_option maxRecDepth 4000 in
set_option maxHeartbeats 12000000 in
theorem maskFact_c8_30 : checkPow maskFact 8 7680 = true := by decide

set_option maxRecDepth 4000 in
set_option maxHeartbeats 12000000 in
theorem maskFact_c8_31 : checkPow maskFact 8 7936 = true := by decide

theorem maskFact_c9_0 : checkPow maskFact 9 0 = true := by
  rw [show (9 : Nat) = 8 + 1 from rfl, checkPow_succ,
    show (0 + 2 ^ 8 : Nat) = 256 from by norm_num, maskFact_c8_0, maskFact_c8_1]
  rfl

theorem maskFact_c9_1 : checkPow maskFact 9 512 = true := by
  rw [show (9 : Nat) = 8 + 1 from rfl, checkPow_succ,
    show (512 + 2 ^ 8 : Nat) = 768 from by norm_num, maskFact_c8_2, maskFact_c8_3]
  rfl

theorem maskFact_c9_2 : checkPow maskFact 9 1024 = true := by
  rw [show (9 : Nat) = 8 + 1 from rfl, checkPow_succ,
    show (1024 + 2 ^ 8 : Nat) = 1280 from by norm_num, maskFact_c8_4, maskFact_c8_5]
  rfl

theorem maskFact_c9_3 : checkPow maskFact 9 1536 = true := by
  rw [show (9 : Nat) = 8 + 1 from rfl, checkPow_succ,
    show (1536 + 2 ^ 8 : Nat) = 1792 from by norm_num, maskFact_c8_6, maskFact_c8_7]
  rfl

theorem maskFact_c9_4 : checkPow maskFact 9 2048 = true := by
  rw [show (9 : Nat) = 8 + 1 from rfl, checkPow_succ,
    show (2048 + 2 ^ 8 : Nat) = 2304 from by norm_num, maskFact_c8_8, maskFact_c8_9]
  rfl

theorem maskFact_c9_5 : checkPow maskFact 9 2560 = true := by
  rw [show (9 : Nat) = 8 + 1 from rfl, checkPow_succ,
    show (2560 + 2 ^ 8 : Nat) = 2816 from by norm_num, maskFact_c8_10, maskFact_c8_11]
  rfl

theorem maskFact_c9_6 : checkPow maskFact 9 3072 = true := by
  rw [show (9 : Nat) = 8 + 1 from rfl, checkPow_succ,
    show (3072 + 2 ^ 8 : Nat) = 3328 from by norm_num, maskFact_c8_12, maskFact_c8_13]
  rfl

theorem maskFact_c9_7 : checkPow maskFact 9 3584 = true := by
  rw [show (9 : Nat) = 8 + 1 from rfl, checkPow_succ,
    show (3584 + 2 ^ 8 : Nat) = 3840 from by norm_num, maskFact_c8_14, maskFact_c8_15]
  rfl

theorem maskFact_c9_8 : checkPow maskFact 9 4096 = true := by
  rw [show (9 : Nat) = 8 + 1 from rfl, checkPow_succ,
    show (4096 + 2 ^ 8 : Nat) = 4352 from by norm_num, maskFact_c8_16, maskFact_c8_17]
  rfl

theorem maskFact_c9_9 : checkPow maskFact 9 4608 = true := by
  rw [show (9 : Nat) = 8 + 1 from rfl, checkPow_succ,
    show (4608 + 2 ^ 8 : Nat) = 4864 from by norm_num, maskFact_c8_18, maskFact_c8_19]
  rfl

theorem maskFact_c9_10 : checkPow maskFact 9 5120 = true := by
  rw [show (9 : Nat) = 8 + 1 from rfl, checkPow_succ,
    show (5120 + 2 ^ 8 : Nat) = 5376 from by norm_num, maskFact_c8_20, maskFact_c8_21]
  rfl

theorem maskFact_c9_11 : checkPow maskFact 9 5632 = true := by
  rw [show (9 : Nat) = 8 + 1 from rfl, checkPow_succ,
    show (5632 + 2 ^ 8 : Nat) = 5888 from by norm_num, maskFact_c8_22, maskFact_c8_23]
  rfl

theorem maskFact_c9_12 : checkPow maskFact 9 6144 = true := by
  rw [show (9 : Nat) = 8 + 1 from rfl, checkPow_succ,
    show (6144 + 2 ^ 8 : Nat) = 6400 from by norm_num, maskFact_c8_24, maskFact_c8_25]
  rfl

theorem maskFact_c9_13 : checkPow maskFact 9 6656 = true := by
  rw [show (9 : Nat) = 8 + 1 from rfl, checkPow_succ,
    show (6656 + 2 ^ 8 : Nat) = 6912 from by norm_num, maskFact_c8_26, maskFact_c8_27]
  rfl

theorem maskFact_c9_14 : checkPow maskFact 9 7168 = true := by
  rw [show (9 : Nat) = 8 + 1 from rfl, checkPow_succ,
    show (7168 + 2 ^ 8 : Nat) = 7424 from by norm_num, maskFact_c8_28, maskFact_c8_29]
  rfl

theorem maskFact_c9_15 : checkPow maskFact 9 7680 = true := by
  rw [show (9 : Nat) = 8 + 1 from rfl, checkPow_succ,
    show (7680 + 2 ^ 8 : Nat) = 7936 from by norm_num, maskFact_c8_30, maskFact_c8_31]
  rfl

theorem maskFact_c10_0 : checkPow maskFact 10 0 = true := by
  rw [show (10 : Nat) = 9 + 1 from rfl, checkPow_succ,
    show (0 + 2 ^ 9 : Nat) = 512 from by norm_num, maskFact_c9_0, maskFact_c9_1]
  rfl

theorem maskFact_c10_1 : checkPow maskFact 10 1024 = true := by
  rw [show (10 : Nat) = 9 + 1 from rfl, checkPow_succ,
    show (1024 + 2 ^ 9 : Nat) = 1536 from by norm_num, maskFact_c9_2, maskFact_c9_3]
  rfl

theorem maskFact_c10_2 : checkPow maskFact 10 2048 = true := by
  rw [show (10 : Nat) = 9 + 1 from rfl, checkPow_succ,
    show (2048 + 2 ^ 9 : Nat) = 2560 from by norm_num, maskFact_c9_4, maskFact_c9_5]
  rfl

theorem maskFact_c10_3 : checkPow maskFact 10 3072 = true := by
  rw [show (10 : Nat) = 9 + 1 from rfl, checkPow_succ,
    show (3072 + 2 ^ 9 : Nat) = 3584 from by norm_num, maskFact_c9_6, maskFact_c9_7]
  rfl

theorem maskFact_c10_4 : checkPow maskFact 10 4096 = true := by
  rw [show (10 : Nat) = 9 + 1 from rfl, checkPow_succ,
    show (4096 + 2 ^ 9 : Nat) = 4608 from by norm_num, maskFact_c9_8, maskFact_c9_9]
  rfl

theorem maskFact_c10_5 : checkPow maskFact 10 5120 = true := by
  rw [show (10 : Nat) = 9 + 1 from rfl, checkPow_succ,
    show (5120 + 2 ^ 9 : Nat) = 5632 from by norm_num, maskFact_c9_10, maskFact_c9_11]
  rfl

theorem maskFact_c10_6 : checkPow maskFact 10 6144 = true := by
  rw [show (10 : Nat) = 9 + 1 from rfl, checkPow_succ,
    show (6144 + 2 ^ 9 : Nat) = 6656 from by norm_num, maskFact_c9_12, maskFact_c9_13]
  rfl

theorem maskFact_c10_7 : checkPow maskFact 10 7168 = true := by
  rw [show (10 : Nat) = 9 + 1 from rfl, checkPow_succ,
    show (7168 + 2 ^ 9 : Nat) = 7680 from by norm_num, maskFact_c9_14, maskFact_c9_15]
  rfl

theorem maskFact_c11_0 : checkPow maskFact 11 0 = true := by
  rw [show (11 : Nat) = 10 + 1 from rfl, checkPow_succ,
    show (0 + 2 ^ 10 : Nat) = 1024 from by norm_num, maskFact_c10_0, maskFact_c10_1]
  rfl

theorem maskFact_c11_1 : checkPow maskFact 11 2048 = true := by
  rw [show (11 : Nat) = 10 + 1 from rfl, checkPow_succ,
    show (2048 + 2 ^ 10 : Nat) = 3072 from by norm_num, maskFact_c10_2, maskFact_c10_3]
  rfl

theorem maskFact_c11_2 : checkPow maskFact 11 4096 = true := by
  rw [show (11 : Nat) = 10 + 1 from rfl, checkPow_succ,
    show (4096 + 2 ^ 10 : Nat) = 5120 from by norm_num, maskFact_c10_4, maskFact_c10_5]
  rfl

theorem maskFact_c11_3 : checkPow maskFact 11 6144 = true := by
  rw [show (11 : Nat) = 10 + 1 from rfl, checkPow_succ,
    show (6144 + 2 ^ 10 : Nat) = 7168 from by norm_num, maskFact_c10_6, maskFact_c10_7]
  rfl

theorem maskFact_c12_0 : checkPow maskFact 12 0 = true := by
  rw [show (12 : Nat) = 11 + 1 from rfl, checkPow_succ,
    show (0 + 2 ^ 11 : Nat) = 2048 from by norm_num, maskFact_c11_0, maskFact_c11_1]
  rfl

theorem maskFact_c12_1 : checkPow maskFact 12 4096 = true := by
  rw [show (12 : Nat) = 11 + 1 from rfl, checkPow_succ,
    show (4096 + 2 ^ 11 : Nat) = 6144 from by norm_num, maskFact_c11_2, maskFact_c11_3]
  rfl

/-- Exhaustive check of the per-mask facts over all 8192 13-bit masks,
assembled from the 256-mask chunks. -/
theorem maskFact_all : checkPow maskFact 13 0 = true := by
  rw [show (13 : Nat) = 12 + 1 from rfl, checkPow_succ,
    show (0 + 2 ^ 12 : Nat) = 4096 from by norm_num, maskFact_c12_0, maskFact_c12_1]
  rfl

theorem maskFact_true {m : Nat} (h : m < 8192) : maskFact m = true := by
  have := checkPow_spec maskFact 13 0 maskFact_all m (by simpa using h)
  simpa using this

/-- Flush-rank bounds for every 5-bit mask outside the straight-flush
patterns, extracted from the exhaustive check. -/
theorem flush_rank_bounds {m : Nat} (hm : m < 8192) (h5 : popcount m = 5)
    (hsf : isSFMask m = false) :
    323 ≤ compute_flush_rank m ∧ compute_flush_rank m ≤ 1598 := by
  have hfact := maskFact_true hm
  simp only [maskFact, Bool.and_eq_true, Bool.or_eq_true, Bool.not_eq_true',
    decide_eq_true_eq, decide_eq_false_iff_not] at hfact
  rcases hfact.1 with (hne | hsf') | hb
  · exact absurd h5 hne
  · rw [hsf] at hsf'; cases hsf'
  · exact hb

/-- Clearing low bits of a mask with at least five set bits stops at exactly
five set bits, extracted from the exhaustive check. -/
theorem keepTop5_popcount {m : Nat} (hm : m < 8192) (h5 : 5 ≤ popcount m) :
    popcount (keepTop5 16 m) = 5 := by
  have hfact := maskFact_true hm
  simp only [maskFact, Bool.and_eq_true, Bool.or_eq_true, Bool.not_eq_true',
    decide_eq_true_eq, decide_eq_false_iff_not] at hfact
  rcases hfact.2 with hne | hk
  · exact absurd h5 hne
  · exact hk

/-- On a mask that is not a straight-flush pattern, `compute_flush_rank` is
the descending-CNS formula. -/
theorem compute_flush_rank_eq_formula {m : Nat} (hsf : isSFMask m = false) :
    compute_flush_rank m = 323 + (1286 - cnsIdx m) * 1276 / 1286 := by
  rw [isSFMask, Bool.or_eq_false_iff] at hsf
  obtain ⟨hw, hwin⟩ := hsf
  rw [decide_eq_false_iff_not] at hw
  have hnone : (List.range 9).find? (fun i => m = 31 <<< i) = none := by
    rw [List.find?_eq_none]
    intro i hi
    simp only [List.any_eq_false] at hwin
    simpa using hwin i hi
  rw [compute_flush_rank, if_neg hw, hnone]

/-- C1: counterexample. The claim fails on the code: the flush assignment is
neither injective nor strictly decreasing in the CNS index, and the weakest
pattern 7-5-4-3-2 (mask 47) receives 1598, not 1599. Masks 6277 (A-K-9-4-2)
and 6275 (A-K-9-3-2) are distinct valid non-straight-flush masks with
distinct CNS indices yet both receive rank 450. -/
theorem c1_flush_table_counterexample :
    popcount 6277 = 5 ∧ popcount 6275 = 5 ∧
    isSFMask 6277 = false ∧ isSFMask 6275 = false ∧
    cnsIdx 6275 < cnsIdx 6277 ∧ (6275 : Nat) ≠ 6277 ∧
    compute_flush_rank 6277 = 450 ∧ compute_flush_rank 6275 = 450 ∧
    compute_flush_rank 47 = 1598 ∧ popcount 47 = 5 ∧ isSFMask 47 = false := by
  decide

/-- C1 (amended): every 13-bit mask with exactly five set bits that does not
match a straight-flush window (including the wheel) is assigned a rank in
323-1598; ranks are non-increasing as the CNS lexicographic index increases
(distinct masks may share a rank); the strongest pattern A-K-Q-J-9 (mask
7808) receives 323 and the weakest 7-5-4-3-2 (mask 47) receives 1598. -/
theorem c1_flush_table_amended :
    (∀ m, m < 8192 → popcount m = 5 → isSFMask m = false →
        323 ≤ compute_flush_rank m ∧ compute_flush_rank m ≤ 1598) ∧
    (∀ m1 m2, isSFMask m1 = false → isSFMask m2 = false →
        cnsIdx m1 ≤ cnsIdx m2 → compute_flush_rank m2 ≤ compute_flush_rank m1) ∧
    compute_flush_rank 7808 = 323 ∧ compute_flush_rank 47 = 1598 := by
  refine ⟨fun m hm h5 hsf => flush_rank_bounds hm h5 hsf, ?_, by decide, by decide⟩
  intro m1 m2 h1 h2 hle
  rw [compute_flush_rank_eq_formula h1, compute_flush_rank_eq_formula h2]
  have hsub : 1286 - cnsIdx m2 ≤ 1286 - cnsIdx m1 := Nat.sub_le_sub_left hle 1286
  exact Nat.add_le_add_left (Nat.div_le_div_right (Nat.mul_le_mul_right 1276 hsub)) 323

/-- C1 witness: the amended theorem applied at masks 6277 (A-K-9-4-2) and 47
(7-5-4-3-2). -/
theorem c1_flush_table_amended_witness :
    (323 ≤ compute_flush_rank 6277 ∧ compute_flush_rank 6277 ≤ 1598) ∧
    compute_flush_rank 6277 ≤ compute_flush_rank 47 := by
  refine ⟨c1_flush_table_amended.1 6277 (by decide) (by decide) (by decide), ?_⟩
  exact c1_flush_table_amended.2.1 47 6277 (by decide) (by decide) (by decide)

/-- C2: the code disagrees with the claim at the strongest two-pair hand.
The valid 7-card hand A-spades A-hearts K-diamonds K-hearts Q-diamonds with
hole J-clubs 9-clubs (best hand: aces and kings with a queen kicker, no
flush, no straight) evaluates to 2470, not the canonical 2468, because
`rank_two_pair` clamps `12 - kicker` at 10 instead of remapping the kicker
past the two pair ranks; the clamp also collides distinct kickers (deuce and
trey kickers under fives and fours tie at 3270). -/
theorem c2_two_pair_bug :
    evaluate_7cards [12, 25, 37, 24, 36] [48, 46] = 2470 ∧
    rank_two_pair 12 11 10 = 2470 ∧ (2470 : Nat) ≠ 2468 ∧
    rank_two_pair 3 2 1 = rank_two_pair 3 2 0 ∧
    ValidInput [12, 25, 37, 24, 36] [48, 46] := by
  decide

/-- C9: on both architecture paths, batch evaluation of equal-length inputs
returns one rank per index, each equal to the scalar evaluator on the
corresponding board-hand pair. -/
theorem c9_batch_refines_scalar (boards hands : List (List Nat))
    (hlen : boards.length = hands.length) :
    evaluate_batch_neon boards hands = evaluate_batch_scalar boards hands ∧
    (evaluate_batch_scalar boards hands).length = boards.length ∧
    ∀ i (hi : i < boards.length),
      (evaluate_batch_scalar boards hands).getD i 0 =
        evaluate_7cards (boards.getD i []) (hands.getD i []) := by
  have hslen : (evaluate_batch_scalar boards hands).length = boards.length := by
    simp [evaluate_batch_scalar]
  have hget : ∀ i (hi : i < boards.length),
      (evaluate_batch_scalar boards hands).getD i 0 =
        evaluate_7cards (boards.getD i []) (hands.getD i []) := by
    intro i hi
    rw [List.getD_eq_getElem _ _ (by omega : i < (evaluate_batch_scalar boards hands).length)]
    simp [evaluate_batch_scalar]
  refine ⟨?_, hslen, hget⟩
  apply List.ext_getElem
  · simp [evaluate_batch_neon, evaluate_batch_scalar, hlen]
  · intro i h1 h2
    have hib : i < boards.length := by
      simpa [evaluate_batch_neon, hlen] using h1
    have hih : i < hands.length := by omega
    simp [evaluate_batch_neon, evaluate_batch_scalar,
      List.getElem?_eq_getElem hib, List.getElem?_eq_getElem hih]

/-- C9 witness: the theorem applied to a one-element batch (a royal flush). -/
theorem c9_batch_refines_scalar_witness :
    evaluate_batch_neon [[12, 11, 10, 9, 8]] [[18, 19]] =
      evaluate_batch_scalar [[12, 11, 10, 9, 8]] [[18, 19]] :=
  (c9_batch_refines_scalar [[12, 11, 10, 9, 8]] [[18, 19]] (by decide)).1

theorem rank_four_of_a_kind_bounds (q k : Nat) :
    11 ≤ rank_four_of_a_kind q k ∧ rank_four_of_a_kind q k ≤ 167 := by
  rw [rank_four_of_a_kind]
  split <;> omega

theorem rank_full_house_bounds (t p : Nat) :
    167 ≤ rank_full_house t p ∧ rank_full_house t p ≤ 323 := by
  rw [rank_full_house]
  split <;> omega

theorem rank_three_of_a_kind_bounds (t k1 k2 : Nat) :
    1610 ≤ rank_three_of_a_kind t k1 k2 ∧ rank_three_of_a_kind t k1 k2 ≤ 2467 := by
  rw [rank_three_of_a_kind]
  omega

theorem rank_two_pair_bounds (hp lp k : Nat) :
    2468 ≤ rank_two_pair hp lp k ∧ rank_two_pair hp lp k ≤ 3325 := by
  rw [rank_two_pair]
  omega

theorem rank_one_pair_bounds (p k1 k2 k3 : Nat) :
    3326 ≤ rank_one_pair p k1 k2 k3 ∧ rank_one_pair p k1 k2 k3 ≤ 6185 := by
  rw [rank_one_pair]
  omega

theorem rank_high_card_bounds (c1 c2 c3 c4 c5 : Nat) :
    6186 ≤ rank_high_card c1 c2 c3 c4 c5 ∧ rank_high_card c1 c2 c3 c4 c5 ≤ 7462 := by
  rw [rank_high_card]
  omega

/-- The non-flush classifier always lands in the canonical non-flush range,
for every rank-count array. -/
theorem best_nonflush_hand_7_bounds (counts : List Nat) :
    11 ≤ best_nonflush_hand_7 counts ∧ best_nonflush_hand_7 counts ≤ 7462 := by
  rw [best_nonflush_hand_7]
  split
  · constructor
    · exact (rank_four_of_a_kind_bounds _ _).1
    · exact le_trans (rank_four_of_a_kind_bounds _ _).2 (by norm_num)
  · split
    · constructor
      · exact le_trans (by norm_num) (rank_full_house_bounds _ _).1
      · exact le_trans (rank_full_house_bounds _ _).2 (by norm_num)
    · rcases hfind : ((List.range 9).reverse).find?
        (fun i => rankPresent counts &&& (31 <<< i) = 31 <<< i) with _ | i
      · simp only [hfind]
        split
        · omega
        · split
          · constructor
            · exact le_trans (by norm_num) (rank_three_of_a_kind_bounds _ _ _).1
            · exact le_trans (rank_three_of_a_kind_bounds _ _ _).2 (by norm_num)
          · split
            · constructor
              · exact le_trans (by norm_num) (rank_two_pair_bounds _ _ _).1
              · exact le_trans (rank_two_pair_bounds _ _ _).2 (by norm_num)
            · split
              · constructor
                · exact le_trans (by norm_num) (rank_one_pair_bounds _ _ _ _).1
                · exact le_trans (rank_one_pair_bounds _ _ _ _).2 (by norm_num)
              · constructor
                · exact le_trans (by norm_num) (rank_high_card_bounds _ _ _ _ _).1
                · exact (rank_high_card_bounds _ _ _ _ _).2
      · have hi : i < 9 := by
          have hmem := List.mem_of_find?_eq_some hfind
          simp only [List.mem_reverse, List.mem_range] at hmem
          exact hmem
        simp only [hfind]
        split <;> omega

/-- Every straight-flush window mask has exactly five set bits. -/
theorem popcount_window : ∀ i < 9, popcount (31 <<< i) = 5 := by decide

/-- Flush ranks are always in 1-1599, for every mask. -/
theorem compute_flush_rank_bounds_all (m : Nat) :
    1 ≤ compute_flush_rank m ∧ compute_flush_rank m ≤ 1599 := by
  rw [compute_flush_rank]
  split
  · omega
  · rcases hfind : (List.range 9).find? (fun i => m = 31 <<< i) with _ | i
    · simp only [hfind]
      have hsub : (1286 - cnsIdx m) * 1276 / 1286 ≤ 1276 := by
        have h1 : (1286 - cnsIdx m) * 1276 ≤ 1286 * 1276 :=
          Nat.mul_le_mul_right 1276 (Nat.sub_le 1286 (cnsIdx m))
        calc (1286 - cnsIdx m) * 1276 / 1286 ≤ 1286 * 1276 / 1286 :=
              Nat.div_le_div_right h1
          _ = 1276 := by norm_num
      omega
    · have hi : i < 9 := by
        have hmem := List.mem_of_find?_eq_some hfind
        simpa using hmem
      simp only [hfind]
      split <;> omega

/-- Each bit cleared by `keepTop5` was already set in the input mask. -/
theorem keepTop5_testBit :
    ∀ fuel m j, (keepTop5 fuel m).testBit j = true → m.testBit j = true := by
  intro fuel
  induction fuel with
  | zero => intro m j h; simpa [keepTop5] using h
  | succ f ih =>
    intro m j h
    rw [keepTop5] at h
    by_cases hc : 5 < popcount m
    · rw [if_pos hc] at h
      have := ih (m &&& (m - 1)) j h
      rw [Nat.testBit_land, Bool.and_eq_true] at this
      exact this.1
    · rwa [if_neg hc] at h

/-- The `keepTop5` result is still a bitwise subset of the input. -/
theorem keepTop5_land (fuel m : Nat) : m &&& keepTop5 fuel m = keepTop5 fuel m := by
  apply Nat.eq_of_testBit_eq
  intro j
  rw [Nat.testBit_land]
  cases hk : (keepTop5 fuel m).testBit j
  · simp
  · simp [keepTop5_testBit fuel m j hk]

/-- The flush path always lands in the flush or straight-flush range. -/
theorem best_flush_hand_7_bounds {m : Nat} (hm : m < 8192) (h5 : 5 ≤ popcount m) :
    1 ≤ best_flush_hand_7 m ∧ best_flush_hand_7 m ≤ 1599 := by
  rw [best_flush_hand_7]
  rcases hfind : ((List.range 9).reverse).find?
      (fun i => m &&& (31 <<< i) = 31 <<< i) with _ | i
  · simp only [hfind]
    split
    · rw [flushTableEntry, if_pos (by decide : popcount 4111 = 5)]
      exact ⟨(compute_flush_rank_bounds_all 4111).1, (compute_flush_rank_bounds_all 4111).2⟩
    · rw [flushTableEntry, if_pos (keepTop5_popcount hm h5)]
      exact compute_flush_rank_bounds_all _
  · have hi : i < 9 := by
      have hmem := List.mem_of_find?_eq_some hfind
      simpa using hmem
    simp only [hfind]
    rw [flushTableEntry, if_pos (popcount_window i hi)]
    exact compute_flush_rank_bounds_all _

/-- Suit masks built from cards stay below 2 to the 13. -/
theorem suitMask_lt (cards : List Nat) (s : Nat) : suitMask cards s < 8192 := by
  rw [suitMask]
  generalize hacc : (0 : Nat) = acc
  have hlt : acc < 8192 := by omega
  clear hacc
  induction cards generalizing acc with
  | nil => simpa using hlt
  | cons v rest ih =>
    rw [List.foldl_cons]
    apply ih
    split
    · have h1 : (1 <<< (v % 13)) < 2 ^ 13 := by
        rw [Nat.shiftLeft_eq, one_mul]
        exact Nat.pow_lt_pow_right (by norm_num) (by omega)
      exact Nat.or_lt_two_pow (by simpa using hlt) h1
    · exact hlt

/-- C7: every valid 7-card input evaluates to a rank between 1 and 7462. -/
theorem c7_evaluate_range (board hand : List Nat) (hvalid : ValidInput board hand) :
    1 ≤ evaluate_7cards board hand ∧ evaluate_7cards board hand ≤ 7462 := by
  rw [evaluate_7cards]
  rcases hfind : (List.range 4).find?
      (fun s => 5 ≤ popcount (suitMask (board ++ hand) s)) with _ | s
  · simp only [hfind]
    have := best_nonflush_hand_7_bounds (rankCounts (board ++ hand))
    omega
  · have hpred := List.find?_some hfind
    rw [decide_eq_true_eq] at hpred
    simp only [hfind]
    have := best_flush_hand_7_bounds (suitMask_lt (board ++ hand) s) hpred
    omega

/-- C7 witness: the range theorem applied to a concrete valid hand. -/
theorem c7_evaluate_range_witness :
    1 ≤ evaluate_7cards [12, 11, 10, 9, 8] [18, 19] ∧
      evaluate_7cards [12, 11, 10, 9, 8] [18, 19] ≤ 7462 :=
  c7_evaluate_range [12, 11, 10, 9, 8] [18, 19] (by decide)

theorem current_strategy_length (st : RegretStorage) (i : Nat) :
    (st.current_strategy i).length = (st.regrets.getD i []).length := by
  rw [RegretStorage.current_strategy]
  split <;> simp

theorem cfr_traverse_get_none {tree : GameTree} {evs : List (Nat × ℚ)}
    {storage : RegretStorage} {t fuel node_id : Nat} {rIP rOOP : ℚ}
    (hn : tree.get node_id = none) :
    cfr_traverse tree evs storage t (fuel + 1) node_id rIP rOOP = none := by
  rw [cfr_traverse, hn]

theorem cfr_traverse_terminal {tree : GameTree} {evs : List (Nat × ℚ)}
    {storage : RegretStorage} {t fuel node_id j : Nat} {rIP rOOP : ℚ}
    (hn : tree.get node_id = some (Node.terminal j)) :
    cfr_traverse tree evs storage t (fuel + 1) node_id rIP rOOP =
      match lookupEv evs node_id with
      | none => none
      | some ev => some (ev, []) := by
  rw [cfr_traverse, hn]

theorem cfr_traverse_decision {tree : GameTree} {evs : List (Nat × ℚ)}
    {storage : RegretStorage} {t fuel node_id j infoset : Nat} {player : Player}
    {children : List Nat} {acts : List GAction} {rIP rOOP : ℚ}
    (hn : tree.get node_id = some (Node.decision j infoset player children acts)) :
    cfr_traverse tree evs storage t (fuel + 1) node_id rIP rOOP =
      (match goChildren (fun c rI rO => cfr_traverse tree evs storage t fuel c rI rO)
          player rIP rOOP (children.zip (storage.current_strategy infoset)) with
      | none => none
      | some (child_evs, updates) =>
        some ((((storage.current_strategy infoset).zip child_evs).map
            (fun se => se.1 * se.2)).sum,
          updates ++ [⟨infoset,
            child_evs.map (fun ev =>
              if player = Player.IP then
                rOOP * (ev - (((storage.current_strategy infoset).zip child_evs).map
                  (fun se => se.1 * se.2)).sum)
              else
                rIP * ((((storage.current_strategy infoset).zip child_evs).map
                  (fun se => se.1 * se.2)).sum - ev)),
            storage.current_strategy infoset, t⟩]) ) := by
  rw [cfr_traverse, hn]

theorem cfr_traverse_chance {tree : GameTree} {evs : List (Nat × ℚ)}
    {storage : RegretStorage} {t fuel node_id j : Nat}
    {children : List Nat} {rIP rOOP : ℚ}
    (hn : tree.get node_id = some (Node.chance j children)) :
    cfr_traverse tree evs storage t (fuel + 1) node_id rIP rOOP =
      (match goChance (fun c rI rO => cfr_traverse tree evs storage t fuel c rI rO)
          rIP rOOP children with
      | none => none
      | some (child_evs, updates) =>
        some (child_evs.sum / (children.length : ℚ), updates)) := by
  rw [cfr_traverse, hn]

theorem postOrder_of_get {tree : GameTree} {fuel node_id : Nat} :
    postOrderInfosets tree (fuel + 1) node_id =
      match tree.get node_id with
      | some (Node.decision _ infoset _ children _) =>
        children.flatMap (postOrderInfosets tree fuel) ++ [infoset]
      | some (Node.chance _ children) => children.flatMap (postOrderInfosets tree fuel)
      | _ => [] := by
  rw [postOrderInfosets]

/-- If the decision-child loop succeeds, its update list is the
concatenation of the children's update lists in child order. -/
theorem goChildren_map_infoset
    (rec : Nat → ℚ → ℚ → Option (ℚ × List RegretUpdate))
    (player : Player) (rIP rOOP : ℚ) (g : Nat → List Nat)
    (hrec : ∀ c rI rO e u, rec c rI rO = some (e, u) →
      u.map RegretUpdate.infoset_id = g c) :
    ∀ (l : List (Nat × ℚ)) evs upds,
      goChildren rec player rIP rOOP l = some (evs, upds) →
      upds.map RegretUpdate.infoset_id = (l.map Prod.fst).flatMap g := by
  intro l
  induction l with
  | nil =>
    intro evs upds h
    simp [goChildren] at h
    simp [h.2.symm]
  | cons cp rest ih =>
    intro evs upds h
    obtain ⟨c, p⟩ := cp
    rw [goChildren] at h
    rcases h1 : rec c (if player = Player.IP then rIP * p else rIP)
        (if player = Player.IP then rOOP else rOOP * p) with _ | ⟨e, u⟩ <;>
      rw [h1] at h
    · simp at h
    · rcases h2 : goChildren rec player rIP rOOP rest with _ | ⟨evs2, uss⟩ <;>
        rw [h2] at h
      · simp at h
      · simp only [Option.some.injEq, Prod.mk.injEq] at h
        rw [← h.2, List.map_append, hrec c _ _ e u h1, ih evs2 uss h2]
        simp

/-- If the chance-child loop succeeds, its update list is the concatenation
of the children's update lists in child order. -/
theorem goChance_map_infoset
    (rec : Nat → ℚ → ℚ → Option (ℚ × List RegretUpdate))
    (rIP rOOP : ℚ) (g : Nat → List Nat)
    (hrec : ∀ c rI rO e u, rec c rI rO = some (e, u) →
      u.map RegretUpdate.infoset_id = g c) :
    ∀ (l : List Nat) evs upds,
      goChance rec rIP rOOP l = some (evs, upds) →
      upds.map RegretUpdate.infoset_id = l.flatMap g := by
  intro l
  induction l with
  | nil =>
    intro evs upds h
    simp [goChance] at h
    simp [h.2.symm]
  | cons c rest ih =>
    intro evs upds h
    rw [goChance] at h
    rcases h1 : rec c rIP rOOP with _ | ⟨e, u⟩ <;> rw [h1] at h
    · simp at h
    · rcases h2 : goChance rec rIP rOOP rest with _ | ⟨evs2, uss⟩ <;> rw [h2] at h
      · simp at h
      · simp only [Option.some.injEq, Prod.mk.injEq] at h
        rw [← h.2, List.map_append, hrec c _ _ e u h1, ih evs2 uss h2]
        simp

/-- A successful traversal lists its update records in the post-order of the
decision nodes it visits. -/
theorem cfr_traverse_postorder (tree : GameTree) (evs : List (Nat × ℚ))
    (storage : RegretStorage) (t : Nat) (hw : WidthsMatch tree storage) :
    ∀ fuel node_id rIP rOOP ev upds,
      cfr_traverse tree evs storage t fuel node_id rIP rOOP = some (ev, upds) →
      upds.map RegretUpdate.infoset_id = postOrderInfosets tree fuel node_id := by
  intro fuel
  induction fuel with
  | zero => intro node_id rIP rOOP ev upds h; simp [cfr_traverse] at h
  | succ fuel ih =>
    intro node_id rIP rOOP ev upds h
    rcases hn : tree.get node_id with _ | n
    · rw [cfr_traverse_get_none hn] at h
      cases h
    · match n, hn with
      | Node.terminal j, hn =>
        rw [cfr_traverse_terminal hn] at h
        rw [postOrder_of_get, hn]
        rcases hl : lookupEv evs node_id with _ | v <;> rw [hl] at h
        · cases h
        · simp only [Option.some.injEq, Prod.mk.injEq] at h
          simp [← h.2]
      | Node.chance j children, hn =>
        rw [cfr_traverse_chance hn] at h
        rw [postOrder_of_get, hn]
        rcases hg : goChance (fun c rI rO => cfr_traverse tree evs storage t fuel c rI rO)
            rIP rOOP children with _ | ⟨child_evs, updates⟩ <;> rw [hg] at h
        · cases h
        · simp only [Option.some.injEq, Prod.mk.injEq] at h
          rw [← h.2]
          exact goChance_map_infoset _ rIP rOOP (postOrderInfosets tree fuel)
            (fun c rI rO e u hc => ih c rI rO e u hc) children child_evs updates hg
      | Node.decision j infoset player children acts, hn =>
        rw [cfr_traverse_decision hn] at h
        rw [postOrder_of_get, hn]
        rcases hg : goChildren (fun c rI rO => cfr_traverse tree evs storage t fuel c rI rO)
            player rIP rOOP (children.zip (storage.current_strategy infoset))
            with _ | ⟨child_evs, updates⟩ <;> rw [hg] at h
        · cases h
        · simp only [Option.some.injEq, Prod.mk.injEq] at h
          rw [← h.2, List.map_append]
          have hlen : children.length ≤ (storage.current_strategy infoset).length := by
            have hlt : node_id < tree.nodes.length := by
              have hsome := List.get?_eq_some.mp hn
              exact hsome.1
            have hwm := hw node_id hlt
            simp only [widthsOkAt, hn, decide_eq_true_eq] at hwm
            rw [current_strategy_length]
            omega
          have hmap := goChildren_map_infoset _ player rIP rOOP (postOrderInfosets tree fuel)
            (fun c rI rO e u hc => ih c rI rO e u hc) _ child_evs updates hg
          rw [hmap, List.map_fst_zip _ _ hlen]
          simp

unseal Rat.add Rat.mul Rat.inv Rat.sub in
/-- C3: counterexample. On the 9-node test tree with its terminal table and
the initial storage, the traversal returns its updates for infosets
3, 1, 6, 0 - the post-order of the decision nodes - which differs from the
claimed pre-order 0, 1, 3, 6. -/
theorem c3_update_order_counterexample :
    ((cfr_traverse build_test_tree terminal_ev_table
        (CfrSolver.new build_test_tree).storage 1 9 0 1 1).map
      (fun p => p.2.map RegretUpdate.infoset_id)) = some [3, 1, 6, 0] ∧
    preOrderInfosets build_test_tree 9 0 = [0, 1, 3, 6] ∧
    ([3, 1, 6, 0] : List Nat) ≠ [0, 1, 3, 6] := by
  refine ⟨by decide, by decide, by decide⟩

/-- C3 (amended): for every game tree whose storage rows match the decision
fan-outs, a successful CFR+ traversal lists the per-infoset updates in the
POST-order of the decision nodes (each decision node's record follows its
children's), and `run_iteration` applies regret and strategy-sum updates in
exactly that order. -/
theorem c3_update_order_amended :
    (∀ tree evs storage t fuel node_id rIP rOOP ev upds,
      WidthsMatch tree storage →
      cfr_traverse tree evs storage t fuel node_id rIP rOOP = some (ev, upds) →
      upds.map RegretUpdate.infoset_id = postOrderInfosets tree fuel node_id) ∧
    (∀ s s2, CfrSolver.run_iteration s = some s2 →
      ∃ ev upds,
        cfr_traverse s.tree s.terminal_evs s.storage (s.iteration + 1)
            s.tree.nodes.length 0 1 1 = some (ev, upds) ∧
          s2.storage = applyUpdates s.storage upds ∧ s2.iteration = s.iteration + 1) := by
  constructor
  · intro tree evs storage t fuel node_id rIP rOOP ev upds hw h
    exact cfr_traverse_postorder tree evs storage t hw fuel node_id rIP rOOP ev upds h
  · intro s s2 h
    simp only [CfrSolver.run_iteration] at h
    rcases htr : cfr_traverse s.tree s.terminal_evs s.storage (s.iteration + 1)
        s.tree.nodes.length 0 1 1 with _ | ⟨ev, upds⟩ <;> rw [htr] at h
    · cases h
    · refine ⟨ev, upds, rfl, ?_, ?_⟩ <;> (cases h; rfl)

unseal Rat.add Rat.mul Rat.inv Rat.sub in
/-- C3 witness: the amended theorem applied to a 3-node tree (one IP
decision over two terminals worth 3 and 7): the single update record is the
post-order singleton of infoset 0. -/
theorem c3_update_order_amended_witness :
    ([(⟨0, [-2, 2], [1/2, 1/2], 1⟩ : RegretUpdate)]).map RegretUpdate.infoset_id =
      postOrderInfosets
        ⟨[Node.decision 0 0 Player.IP [1, 2] [GAction.check, GAction.bet 1],
          Node.terminal 1, Node.terminal 2]⟩ 2 0 :=
  c3_update_order_amended.1
    ⟨[Node.decision 0 0 Player.IP [1, 2] [GAction.check, GAction.bet 1],
      Node.terminal 1, Node.terminal 2]⟩
    [(1, 3), (2, 7)]
    (CfrSolver.new_with_evs
      ⟨[Node.decision 0 0 Player.IP [1, 2] [GAction.check, GAction.bet 1],
        Node.terminal 1, Node.terminal 2]⟩ [(1, 3), (2, 7)]).storage
    1 2 0 1 1 5 [⟨0, [-2, 2], [1/2, 1/2], 1⟩] (by decide) (by decide)

/-- If any child of the zipped list always fails, the decision-child loop
fails. -/
theorem goChildren_none_of_mem
    (rec : Nat → ℚ → ℚ → Option (ℚ × List RegretUpdate))
    (player : Player) (rIP rOOP : ℚ) {c : Nat} {p : ℚ}
    (hnone : ∀ rI rO, rec c rI rO = none) :
    ∀ l : List (Nat × ℚ), (c, p) ∈ l →
      goChildren rec player rIP rOOP l = none := by
  intro l
  induction l with
  | nil => intro h; cases h
  | cons cp rest ih =>
    intro hmem
    obtain ⟨c', p'⟩ := cp
    rw [goChildren]
    rcases List.mem_cons.mp hmem with heq | htail
    · obtain ⟨rfl, rfl⟩ := Prod.mk.injEq .. ▸ heq
      rw [hnone]
    · rcases h1 : rec c' (if player = Player.IP then rIP * p' else rIP)
          (if player = Player.IP then rOOP else rOOP * p') with _ | ⟨e, u⟩
      · rfl
      · rw [ih htail]

/-- If any child of the list always fails, the chance-child loop fails. -/
theorem goChance_none_of_mem
    (rec : Nat → ℚ → ℚ → Option (ℚ × List RegretUpdate))
    (rIP rOOP : ℚ) {c : Nat}
    (hnone : ∀ rI rO, rec c rI rO = none) :
    ∀ l : List Nat, c ∈ l → goChance rec rIP rOOP l = none := by
  intro l
  induction l with
  | nil => intro h; cases h
  | cons c' rest ih =>
    intro hmem
    rw [goChance]
    rcases List.mem_cons.mp hmem with heq | htail
    · subst heq
      rw [hnone]
    · rcases h1 : rec c' rIP rOOP with _ | ⟨e, u⟩
      · rfl
      · rw [ih htail]

theorem hasMissing_of_get {tree : GameTree} {evs : List (Nat × ℚ)}
    {fuel node_id : Nat} :
    hasMissingTerminal tree evs (fuel + 1) node_id =
      match tree.get node_id with
      | some (Node.terminal _) => (lookupEv evs node_id).isNone
      | some (Node.decision _ _ _ children _) =>
        children.any (hasMissingTerminal tree evs fuel)
      | some (Node.chance _ children) =>
        children.any (hasMissingTerminal tree evs fuel)
      | none => false := by
  rw [hasMissingTerminal]

theorem mem_zip_of_mem_left {α β : Type} {c : α} {l1 : List α} (l2 : List β)
    (hmem : c ∈ l1) (hlen : l1.length ≤ l2.length) :
    ∃ p, (c, p) ∈ l1.zip l2 := by
  obtain ⟨i, hi, rfl⟩ := List.mem_iff_getElem.mp hmem
  have hz : i < (l1.zip l2).length := by
    rw [List.length_zip]
    omega
  refine ⟨l2[i], List.mem_iff_getElem.mpr ⟨i, hz, ?_⟩⟩
  rw [List.getElem_zip]

/-- If a terminal missing from the utility table is reachable, the traversal
fails instead of returning a value. -/
theorem cfr_traverse_missing (tree : GameTree) (evs : List (Nat × ℚ))
    (storage : RegretStorage) (t : Nat) (hw : WidthsMatch tree storage) :
    ∀ fuel node_id, hasMissingTerminal tree evs fuel node_id = true →
      ∀ rIP rOOP, cfr_traverse tree evs storage t fuel node_id rIP rOOP = none := by
  intro fuel
  induction fuel with
  | zero => intro node_id h; cases h
  | succ fuel ih =>
    intro node_id hmiss rIP rOOP
    rw [hasMissing_of_get] at hmiss
    rcases hn : tree.get node_id with _ | n
    · exact cfr_traverse_get_none hn
    · match n, hn with
      | Node.terminal j, hn =>
        rw [hn] at hmiss
        rw [cfr_traverse_terminal hn, Option.isNone_iff_eq_none.mp hmiss]
      | Node.chance j children, hn =>
        rw [hn] at hmiss
        obtain ⟨c, hcmem, hc⟩ := List.any_eq_true.mp hmiss
        rw [cfr_traverse_chance hn,
          goChance_none_of_mem _ rIP rOOP (fun rI rO => ih c hc rI rO) children hcmem]
      | Node.decision j infoset player children acts, hn =>
        rw [hn] at hmiss
        obtain ⟨c, hcmem, hc⟩ := List.any_eq_true.mp hmiss
        have hlen : children.length ≤ (storage.current_strategy infoset).length := by
          have hlt : node_id < tree.nodes.length := (List.get?_eq_some.mp hn).1
          have hwm := hw node_id hlt
          simp only [widthsOkAt, hn, decide_eq_true_eq] at hwm
          rw [current_strategy_length]
          omega
        obtain ⟨p, hpmem⟩ :=
          mem_zip_of_mem_left (storage.current_strategy infoset) hcmem hlen
        rw [cfr_traverse_decision hn,
          goChildren_none_of_mem _ player rIP rOOP (fun rI rO => ih c hc rI rO) _ hpmem]

theorem foldl_apnStep_length (l : List Node) (apn : List Nat) :
    (l.foldl apnStep apn).length = apn.length := by
  induction l generalizing apn with
  | nil => rfl
  | cons n rest ih =>
    rw [List.foldl_cons, ih]
    cases n <;> simp [apnStep]

theorem foldl_apnStep_untouched (i : Nat) :
    ∀ (l : List Node) (apn : List Nat), (∀ n ∈ l, n.nid ≠ i) →
      (l.foldl apnStep apn).getD i 0 = apn.getD i 0 := by
  intro l
  induction l with
  | nil => intro apn _; rfl
  | cons n rest ih =>
    intro apn hne
    have hhead := hne n (List.mem_cons_self n rest)
    rw [List.foldl_cons, ih _ (fun n' hn' => hne n' (List.mem_cons_of_mem n hn'))]
    cases n with
    | decision j infoset player children actions =>
      have hji : j ≠ i := by simpa [Node.nid] using hhead
      simp [apnStep, List.getD_eq_getElem?_getD, List.getElem?_set_ne hji]
    | chance j children => rfl
    | terminal j => rfl

/-- Each node of a well-formed tree carries its own position as id. -/
theorem wf_nid {tree : GameTree} (hwf : WfTree tree) {p : Nat} {n : Node}
    (hget : tree.get p = some n) : n.nid = p := by
  have hp : p < tree.nodes.length := (List.get?_eq_some.mp hget).1
  have hok := hwf p hp
  cases n <;> simp only [wfOkAt, hget, Bool.and_eq_true, decide_eq_true_eq] at hok <;>
    simp [Node.nid]
  · exact hok.1.1
  · exact hok
  · exact hok

/-- On a well-formed tree, `actions_per_node` holds the action count at each
decision node's position. -/
theorem apn_at_decision {tree : GameTree} (hwf : WfTree tree) {i j infoset : Nat}
    {player : Player} {children : List Nat} {acts : List GAction}
    (hget : tree.get i = some (Node.decision j infoset player children acts)) :
    (actionsPerNode tree).getD i 0 = acts.length := by
  have hi : i < tree.nodes.length := (List.get?_eq_some.mp hget).1
  have hnode : tree.nodes[i] = Node.decision j infoset player children acts := by
    have := hget
    rw [GameTree.get, List.get?_eq_getElem?, List.getElem?_eq_getElem hi] at this
    exact Option.some.inj this
  have hsplit : tree.nodes =
      tree.nodes.take i ++ tree.nodes[i] :: tree.nodes.drop (i + 1) := by
    rw [← List.drop_eq_getElem_cons hi, List.take_append_drop]
  have hdropne : ∀ n ∈ tree.nodes.drop (i + 1), n.nid ≠ i := by
    intro n hn
    obtain ⟨k, hk, hkn⟩ := List.mem_iff_getElem.mp hn
    have hklen : i + 1 + k < tree.nodes.length := by
      have := hk
      rw [List.length_drop] at this
      omega
    have hgetk : tree.get (i + 1 + k) = some n := by
      rw [GameTree.get, List.get?_eq_getElem?, List.getElem?_eq_getElem hklen]
      rw [← hkn, List.getElem_drop]
    rw [wf_nid hwf hgetk]
    omega
  have hj : j = i := by
    have := wf_nid hwf hget
    simpa [Node.nid] using this
  rw [actionsPerNode]
  set apn0 := List.replicate tree.nodes.length (0 : Nat) with happ0
  conv_lhs => rw [hsplit]
  rw [List.foldl_append, List.foldl_cons,
    foldl_apnStep_untouched i _ _ hdropne, hnode, apnStep]
  have hlen : i < (List.foldl apnStep apn0 (tree.nodes.take i)).length := by
    rw [foldl_apnStep_length, happ0, List.length_replicate]
    exact hi
  rw [List.getD_eq_getElem?_getD, List.getElem?_set, hj]
  simp [hlen]

/-- The storage allocated by the solver constructor matches a well-formed
tree's decision fan-outs. -/
theorem widths_of_new (tree : GameTree) (evs : List (Nat × ℚ)) (hwf : WfTree tree) :
    WidthsMatch tree (CfrSolver.new_with_evs tree evs).storage := by
  intro i hi
  rw [widthsOkAt]
  rcases hget : tree.get i with _ | n
  · trivial
  · match n, hget with
    | Node.decision j inf player children acts, hget =>
      have hok := hwf i hi
      simp only [wfOkAt, hget, Bool.and_eq_true, decide_eq_true_eq] at hok
      obtain ⟨⟨hj, hinf⟩, hacts⟩ := hok
      rw [decide_eq_true_eq, hinf]
      have happ : (actionsPerNode tree).length = tree.nodes.length := by
        rw [actionsPerNode, foldl_apnStep_length, List.length_replicate]
      have hilt : i < (actionsPerNode tree).length := by omega
      simp only [CfrSolver.new_with_evs, RegretStorage.new]
      rw [List.getD_eq_getElem?_getD, List.getElem?_map,
        List.getElem?_eq_getElem hilt]
      have hapn := apn_at_decision hwf hget
      rw [List.getD_eq_getElem?_getD, List.getElem?_eq_getElem hilt] at hapn
      simp only [Option.getD_some] at hapn
      simp [hapn, hacts]
    | Node.chance j children, hget => trivial
    | Node.terminal j, hget => trivial

/-- C10: the one-argument constructor always installs the hardcoded 9-node
test-tree terminal utility table regardless of the tree supplied, and
running an iteration on a well-formed tree in which a terminal whose id is
outside that table is reachable fails (the terminal-utility lookup) instead
of returning a value. -/
theorem c10_hardcoded_terminal_table :
    (∀ tree, (CfrSolver.new tree).terminal_evs = terminal_ev_table) ∧
    (∀ tree, WfTree tree →
      hasMissingTerminal tree terminal_ev_table tree.nodes.length 0 = true →
      (CfrSolver.new tree).run_iteration = none) := by
  refine ⟨fun tree => rfl, fun tree hwf hmiss => ?_⟩
  have hw : WidthsMatch tree (CfrSolver.new tree).storage :=
    widths_of_new tree terminal_ev_table hwf
  simp only [CfrSolver.run_iteration, CfrSolver.new, CfrSolver.new_with_evs]
  rw [cfr_traverse_missing tree terminal_ev_table
    (RegretStorage.new tree.nodes.length (actionsPerNode tree)) (0 + 1) hw
    tree.nodes.length 0 hmiss 1 1]

/-- C10 witness: a single-terminal tree whose terminal id 0 is missing from
the hardcoded table makes the first iteration fail. -/
theorem c10_hardcoded_terminal_table_witness :
    (CfrSolver.new ⟨[Node.terminal 0]⟩).run_iteration = none :=
  c10_hardcoded_terminal_table.2 ⟨[Node.terminal 0]⟩ (by decide) (by decide)

/-- C4: at a decision node for player P, the traversal recurses into child
`a` with the acting player's reach multiplied by `sigma[a]` (the other reach
unchanged), computes the node value `v` as the strategy-weighted sum of
child values from IP's perspective, and emits counterfactual values
`reach_OOP * (ev_a - v)` when P is IP and `reach_IP * (v - ev_a)` when P is
OOP, in a record carrying the current strategy and weight `t`. -/
theorem c4_decision_node_semantics :
    (∀ tree evs storage t fuel node_id j infoset player children acts rIP rOOP
        child_evs upds,
      tree.get node_id = some (Node.decision j infoset player children acts) →
      goChildren (fun c rI rO => cfr_traverse tree evs storage t fuel c rI rO)
          player rIP rOOP (children.zip (storage.current_strategy infoset)) =
        some (child_evs, upds) →
      cfr_traverse tree evs storage t (fuel + 1) node_id rIP rOOP =
        some (nodeValueSpec (storage.current_strategy infoset) child_evs,
          upds ++ [⟨infoset,
            cfValuesSpec player rIP rOOP
              (nodeValueSpec (storage.current_strategy infoset) child_evs) child_evs,
            storage.current_strategy infoset, t⟩])) ∧
    (∀ rec rIP rOOP (c : Nat) (p : ℚ) rest (crest : List Nat),
      goChildren rec Player.IP rIP rOOP ((c, p) :: rest) =
        (rec c (rIP * p) rOOP).bind (fun eu =>
          (goChildren rec Player.IP rIP rOOP rest).bind (fun r2 =>
            some (eu.1 :: r2.1, eu.2 ++ r2.2))) ∧
      goChance rec rIP rOOP (c :: crest) =
        (rec c rIP rOOP).bind (fun eu =>
          (goChance rec rIP rOOP crest).bind (fun r2 =>
            some (eu.1 :: r2.1, eu.2 ++ r2.2))) ∧
      goChildren rec Player.OOP rIP rOOP ((c, p) :: rest) =
        (rec c rIP (rOOP * p)).bind (fun eu =>
          (goChildren rec Player.OOP rIP rOOP rest).bind (fun r2 =>
            some (eu.1 :: r2.1, eu.2 ++ r2.2)))) := by
  constructor
  · intro tree evs storage t fuel node_id j infoset player children acts rIP rOOP
      child_evs upds hn hgo
    rw [cfr_traverse_decision hn, hgo, nodeValueSpec, cfValuesSpec]
  · intro rec rIP rOOP c p rest crest
    refine ⟨?_, ?_, ?_⟩
    · rw [goChildren]
      rcases h1 : rec c (rIP * p) rOOP with _ | ⟨e, u⟩ <;> simp [h1]
      rcases h2 : goChildren rec Player.IP rIP rOOP rest with _ | ⟨evs2, uss⟩ <;>
        simp [h2]
    · rw [goChance]
      rcases h1 : rec c rIP rOOP with _ | ⟨e, u⟩ <;> simp [h1]
      rcases h2 : goChance rec rIP rOOP crest with _ | ⟨evs2, uss⟩ <;> simp [h2]
    · rw [goChildren]
      rcases h1 : rec c rIP (rOOP * p) with _ | ⟨e, u⟩ <;> simp [h1]
      rcases h2 : goChildren rec Player.OOP rIP rOOP rest with _ | ⟨evs2, uss⟩ <;>
        simp [h2]

theorem updateRow_closed_form :
    ∀ (r cf : List ℚ), updateRow r cf =
      (r.zip cf).map (fun rc => max (rc.1 + rc.2) 0) ++ r.drop cf.length := by
  intro r
  induction r with
  | nil => intro cf; cases cf <;> rfl
  | cons ri rs ih =>
    intro cf
    cases cf with
    | nil => rfl
    | cons c cs => simp [updateRow, ih cs]

theorem updateRow_nonneg {r : List ℚ} (hr : ∀ x ∈ r, 0 ≤ x) :
    ∀ cf, ∀ x ∈ updateRow r cf, 0 ≤ x := by
  induction r with
  | nil => intro cf x hx; cases cf <;> simp [updateRow] at hx
  | cons ri rs ih =>
    intro cf x hx
    cases cf with
    | nil => exact hr x hx
    | cons c cs =>
      rw [updateRow] at hx
      rcases List.mem_cons.mp hx with rfl | hx2
      · exact le_max_right _ _
      · exact ih (fun y hy => hr y (List.mem_cons_of_mem ri hy)) cs x hx2

theorem accRow_nonneg {w : ℚ} (hw : 0 ≤ w) :
    ∀ (srow strat : List ℚ), (∀ x ∈ srow, 0 ≤ x) → (∀ p ∈ strat, 0 ≤ p) →
      ∀ x ∈ accRow w srow strat, 0 ≤ x := by
  intro srow
  induction srow with
  | nil => intro strat _ _ x hx; cases strat <;> simp [accRow] at hx
  | cons si ss ih =>
    intro strat hs hp x hx
    cases strat with
    | nil => exact hs x hx
    | cons p ps =>
      rw [accRow] at hx
      rcases List.mem_cons.mp hx with rfl | hx2
      · exact add_nonneg (hs si (List.mem_cons_self si ss))
          (mul_nonneg hw (hp p (List.mem_cons_self p ps)))
      · exact ih ps (fun y hy => hs y (List.mem_cons_of_mem si hy))
          (fun q hq => hp q (List.mem_cons_of_mem p hq)) x hx2

theorem getD_row_nonneg {l : List (List ℚ)} (h : ∀ row ∈ l, ∀ x ∈ row, 0 ≤ x)
    (i : Nat) : ∀ x ∈ l.getD i [], 0 ≤ x := by
  by_cases hi : i < l.length
  · rw [List.getD_eq_getElem?_getD, List.getElem?_eq_getElem hi]
    exact h l[i] (List.getElem_mem hi)
  · rw [List.getD_eq_getElem?_getD, List.getElem?_eq_none (by omega)]
    intro x hx
    cases hx

theorem set_rows_nonneg {l : List (List ℚ)} {r : List ℚ}
    (h : ∀ row ∈ l, ∀ x ∈ row, 0 ≤ x) (hr : ∀ x ∈ r, 0 ≤ x) (i : Nat) :
    ∀ row ∈ l.set i r, ∀ x ∈ row, 0 ≤ x := by
  intro row hrow
  rcases List.mem_or_eq_of_mem_set hrow with hmem | rfl
  · exact h row hmem
  · exact hr

/-- Every strategy produced by regret-matching+ has non-negative entries. -/
theorem current_strategy_nonneg (st : RegretStorage) (i : Nat) :
    ∀ p ∈ st.current_strategy i, 0 ≤ p := by
  intro p hp
  simp only [RegretStorage.current_strategy] at hp
  split at hp
  · rw [List.eq_of_mem_replicate hp]
    exact one_div_nonneg.mpr (Nat.cast_nonneg _)
  · next hns =>
    obtain ⟨x, _, rfl⟩ := List.mem_map.mp hp
    exact div_nonneg (le_max_right x 0) (le_of_lt (not_le.mp hns))

/-- Property propagation through the decision-child loop. -/
theorem goChildren_forall (P : RegretUpdate → Prop)
    (rec : Nat → ℚ → ℚ → Option (ℚ × List RegretUpdate))
    (player : Player) (rIP rOOP : ℚ)
    (hrec : ∀ c rI rO e u, rec c rI rO = some (e, u) → ∀ v ∈ u, P v) :
    ∀ l evs upds, goChildren rec player rIP rOOP l = some (evs, upds) →
      ∀ v ∈ upds, P v := by
  intro l
  induction l with
  | nil =>
    intro evs upds h v hv
    simp [goChildren] at h
    rw [h.2] at hv
    cases hv
  | cons cp rest ih =>
    intro evs upds h v hv
    obtain ⟨c, p⟩ := cp
    rw [goChildren] at h
    rcases h1 : rec c (if player = Player.IP then rIP * p else rIP)
        (if player = Player.IP then rOOP else rOOP * p) with _ | ⟨e, u⟩ <;>
      rw [h1] at h
    · cases h
    · rcases h2 : goChildren rec player rIP rOOP rest with _ | ⟨evs2, uss⟩ <;>
        rw [h2] at h
      · cases h
      · simp only [Option.some.injEq, Prod.mk.injEq] at h
        rw [← h.2] at hv
        rcases List.mem_append.mp hv with hu | hu
        · exact hrec c _ _ e u h1 v hu
        · exact ih evs2 uss h2 v hu

/-- Property propagation through the chance-child loop. -/
theorem goChance_forall (P : RegretUpdate → Prop)
    (rec : Nat → ℚ → ℚ → Option (ℚ × List RegretUpdate)) (rIP rOOP : ℚ)
    (hrec : ∀ c rI rO e u, rec c rI rO = some (e, u) → ∀ v ∈ u, P v) :
    ∀ l evs upds, goChance rec rIP rOOP l = some (evs, upds) → ∀ v ∈ upds, P v := by
  intro l
  induction l with
  | nil =>
    intro evs upds h v hv
    simp [goChance] at h
    rw [h.2] at hv
    cases hv
  | cons c rest ih =>
    intro evs upds h v hv
    rw [goChance] at h
    rcases h1 : rec c rIP rOOP with _ | ⟨e, u⟩ <;> rw [h1] at h
    · cases h
    · rcases h2 : goChance rec rIP rOOP rest with _ | ⟨evs2, uss⟩ <;> rw [h2] at h
      · cases h
      · simp only [Option.some.injEq, Prod.mk.injEq] at h
        rw [← h.2] at hv
        rcases List.mem_append.mp hv with hu | hu
        · exact hrec c _ _ e u h1 v hu
        · exact ih evs2 uss h2 v hu

/-- Every update record a traversal emits carries a strategy vector that is
an output of `current_strategy`, hence non-negative. -/
theorem cfr_traverse_strategy_nonneg (tree : GameTree) (evs : List (Nat × ℚ))
    (storage : RegretStorage) (t : Nat) :
    ∀ fuel node_id rIP rOOP ev upds,
      cfr_traverse tree evs storage t fuel node_id rIP rOOP = some (ev, upds) →
      ∀ u ∈ upds, ∀ p ∈ u.strategy, 0 ≤ p := by
  intro fuel
  induction fuel with
  | zero => intro node_id rIP rOOP ev upds h; cases h
  | succ fuel ih =>
    intro node_id rIP rOOP ev upds h u hu
    rcases hn : tree.get node_id with _ | n
    · rw [cfr_traverse_get_none hn] at h
      cases h
    · match n, hn with
      | Node.terminal j, hn =>
        rw [cfr_traverse_terminal hn] at h
        rcases hl : lookupEv evs node_id with _ | v <;> rw [hl] at h
        · cases h
        · simp only [Option.some.injEq, Prod.mk.injEq] at h
          rw [← h.2] at hu
          cases hu
      | Node.chance j children, hn =>
        rw [cfr_traverse_chance hn] at h
        rcases hg : goChance (fun c rI rO => cfr_traverse tree evs storage t fuel c rI rO)
            rIP rOOP children with _ | ⟨child_evs, updates⟩ <;> rw [hg] at h
        · cases h
        · simp only [Option.some.injEq, Prod.mk.injEq] at h
          rw [← h.2] at hu
          exact goChance_forall (fun u => ∀ p ∈ u.strategy, 0 ≤ p) _ rIP rOOP
            (fun c rI rO e u' hc => ih c rI rO e u' hc) children child_evs updates hg u hu
      | Node.decision j infoset player children acts, hn =>
        rw [cfr_traverse_decision hn] at h
        rcases hg : goChildren (fun c rI rO => cfr_traverse tree evs storage t fuel c rI rO)
            player rIP rOOP (children.zip (storage.current_strategy infoset))
            with _ | ⟨child_evs, updates⟩ <;> rw [hg] at h
        · cases h
        · simp only [Option.some.injEq, Prod.mk.injEq] at h
          rw [← h.2] at hu
          rcases List.mem_append.mp hu with hu2 | hu2
          · exact goChildren_forall (fun u => ∀ p ∈ u.strategy, 0 ≤ p) _ player rIP rOOP
              (fun c rI rO e u' hc => ih c rI rO e u' hc) _ child_evs updates hg u hu2
          · rw [List.mem_singleton.mp hu2]
            exact current_strategy_nonneg storage infoset

/-- The apply phase preserves non-negativity of both storage arrays when the
applied strategies are non-negative (the regret floor needs no hypothesis on
the counterfactual values). -/
theorem applyUpdates_nonneg :
    ∀ (upds : List RegretUpdate) (storage : RegretStorage),
      (∀ row ∈ storage.regrets, ∀ x ∈ row, 0 ≤ x) →
      (∀ row ∈ storage.strategy_sums, ∀ x ∈ row, 0 ≤ x) →
      (∀ u ∈ upds, ∀ p ∈ u.strategy, 0 ≤ p) →
      (∀ row ∈ (applyUpdates storage upds).regrets, ∀ x ∈ row, 0 ≤ x) ∧
      (∀ row ∈ (applyUpdates storage upds).strategy_sums, ∀ x ∈ row, 0 ≤ x) := by
  intro upds
  induction upds with
  | nil => intro storage hr hs _; exact ⟨hr, hs⟩
  | cons u rest ih =>
    intro storage hr hs hstrat
    rw [applyUpdates]
    apply ih
    · apply set_rows_nonneg hr
      exact updateRow_nonneg (getD_row_nonneg hr u.infoset_id) u.cf_values
    · apply set_rows_nonneg hs
      exact accRow_nonneg (by positivity) _ _ (getD_row_nonneg hs u.infoset_id)
        (hstrat u (List.mem_cons_self u rest))
    · exact fun v hv => hstrat v (List.mem_cons_of_mem u hv)

/-- Non-negativity of both storage arrays is preserved by `run_iteration`
and holds for every state reachable from the zero-initialized storage. -/
theorem solverIterate_nonneg :
    ∀ (n : Nat) (s slv : CfrSolver),
      (∀ row ∈ s.storage.regrets, ∀ x ∈ row, 0 ≤ x) →
      (∀ row ∈ s.storage.strategy_sums, ∀ x ∈ row, 0 ≤ x) →
      solverIterate n s = some slv →
      (∀ row ∈ slv.storage.regrets, ∀ x ∈ row, 0 ≤ x) ∧
      (∀ row ∈ slv.storage.strategy_sums, ∀ x ∈ row, 0 ≤ x) := by
  intro n
  induction n with
  | zero =>
    intro s slv hr hs h
    cases h
    exact ⟨hr, hs⟩
  | succ n ih =>
    intro s slv hr hs h
    rw [solverIterate] at h
    rcases hit : s.run_iteration with _ | s2 <;> rw [hit] at h
    · cases h
    · simp only [CfrSolver.run_iteration] at hit
      rcases htr : cfr_traverse s.tree s.terminal_evs s.storage (s.iteration + 1)
          s.tree.nodes.length 0 1 1 with _ | ⟨ev, upds⟩ <;> rw [htr] at hit
      · cases hit
      · cases hit
        have hstrat := cfr_traverse_strategy_nonneg s.tree s.terminal_evs s.storage
          (s.iteration + 1) s.tree.nodes.length 0 1 1 ev upds htr
        have happ := applyUpdates_nonneg upds s.storage hr hs hstrat
        exact ih _ slv happ.1 happ.2 h

/-- Rows of the zero-initialized storage are all zero. -/
theorem new_storage_zero (num_nodes : Nat) (apn : List Nat) :
    (∀ row ∈ (RegretStorage.new num_nodes apn).regrets, ∀ x ∈ row, x = 0) ∧
    (∀ row ∈ (RegretStorage.new num_nodes apn).strategy_sums, ∀ x ∈ row, x = 0) := by
  constructor <;>
  · intro row hrow x hx
    obtain ⟨k, _, rfl⟩ := List.mem_map.mp hrow
    exact List.eq_of_mem_replicate hx

theorem popcountAux_eq_countP :
    ∀ (f m : Nat), popcountAux f m = (List.range f).countP (fun i => m.testBit i) := by
  intro f
  induction f with
  | zero => intro m; rfl
  | succ f ih =>
    intro m
    rw [popcountAux, List.range_succ_eq_map, List.countP_cons, List.countP_map]
    have h1 : (List.range f).countP ((fun i => m.testBit i) ∘ Nat.succ) =
        (List.range f).countP (fun i => (m / 2).testBit i) := by
      apply List.countP_congr
      intro i _
      show (m.testBit (i + 1) = true) ↔ ((m / 2).testBit i = true)
      rw [Nat.testBit_succ]
    rw [h1, ← ih (m / 2), Nat.testBit_zero]
    have hm2 : m % 2 = 0 ∨ m % 2 = 1 := by omega
    rcases hm2 with h | h <;> simp [h, Nat.add_comm]

theorem popcount_eq_countP (m : Nat) :
    popcount m = (List.range 16).countP (fun i => m.testBit i) :=
  popcountAux_eq_countP 16 m

theorem countP_ge_of_sub {p : Nat → Bool} {sub l : List Nat} (hsub : sub ⊆ l)
    (hnodup : sub.Nodup) (hp : ∀ x ∈ sub, p x = true) :
    sub.length ≤ l.countP p := by
  rw [List.countP_eq_length_filter]
  have hsub2 : sub ⊆ l.filter p := by
    intro x hx
    rw [List.mem_filter]
    exact ⟨hsub hx, hp x hx⟩
  exact (hnodup.subperm hsub2).length_le

theorem countP_or_le (p q : Nat → Bool) :
    ∀ l : List Nat, l.countP (fun x => p x || q x) ≤ l.countP p + l.countP q := by
  intro l
  induction l with
  | nil => simp
  | cons a rest ih =>
    rw [List.countP_cons, List.countP_cons, List.countP_cons]
    cases hp : p a <;> cases hq : q a <;> simp [hp, hq] <;> omega

theorem popcount_or_le (a b : Nat) : popcount (a ||| b) ≤ popcount a + popcount b := by
  rw [popcount_eq_countP, popcount_eq_countP, popcount_eq_countP]
  calc (List.range 16).countP (fun i => (a ||| b).testBit i)
      = (List.range 16).countP (fun i => a.testBit i || b.testBit i) := by
        apply List.countP_congr
        intro i _
        rw [Nat.testBit_lor]
    _ ≤ _ := countP_or_le _ _ _

theorem popcount_one_shift {r : Nat} (hr : r < 16) : popcount (1 <<< r) = 1 := by
  interval_cases r <;> decide

theorem testBit_big_false {w n b : Nat} (hw : w < 2 ^ n) (hb : n ≤ b) :
    w.testBit b = false :=
  Nat.testBit_lt_two_pow (lt_of_lt_of_le hw (Nat.pow_le_pow_right (by norm_num) hb))

theorem testBit_31 (k : Nat) : (31 : Nat).testBit k = decide (k < 5) := by
  by_cases hk : k < 5
  · interval_cases k <;> decide
  · rw [testBit_big_false (by norm_num : (31 : Nat) < 2 ^ 5) (by omega)]
    simp [hk]

theorem testBit_window {i b : Nat} :
    ((31 <<< i : Nat)).testBit b = true ↔ i ≤ b ∧ b < i + 5 := by
  rw [Nat.testBit_shiftLeft, testBit_31]
  constructor
  · intro h
    rw [Bool.and_eq_true, decide_eq_true_eq, decide_eq_true_eq] at h
    omega
  · intro h
    rw [Bool.and_eq_true, decide_eq_true_eq, decide_eq_true_eq]
    omega

theorem testBit_wheel {b : Nat} :
    ((4111 : Nat)).testBit b = true ↔ b < 4 ∨ b = 12 := by
  by_cases hb : b < 13
  · have hall : ∀ c < 13, ((4111 : Nat)).testBit c = decide (c < 4 ∨ c = 12) := by decide
    rw [hall b hb]
    simp
  · rw [testBit_big_false (by norm_num : (4111 : Nat) < 2 ^ 13) (by omega)]
    simp
    omega

theorem land_eq_self_of_bits {m w : Nat}
    (h : ∀ b, w.testBit b = true → m.testBit b = true) : m &&& w = w := by
  apply Nat.eq_of_testBit_eq
  intro b
  rw [Nat.testBit_land]
  cases hw : w.testBit b
  · simp
  · simp [h b hw]

theorem testBit_suitMask_aux (s r : Nat) :
    ∀ (l : List Nat) (acc : Nat),
      (l.foldl (fun acc v => if v / 13 = s then acc ||| (1 <<< (v % 13)) else acc)
        acc).testBit r = true ↔
      acc.testBit r = true ∨ ∃ v ∈ l, v / 13 = s ∧ v % 13 = r := by
  intro l
  induction l with
  | nil => intro acc; simp
  | cons v rest ih =>
    intro acc
    rw [List.foldl_cons, ih]
    by_cases hv : v / 13 = s
    · rw [if_pos hv]
      constructor
      · intro h
        rcases h with h | h
        · rw [Nat.testBit_lor, Bool.or_eq_true] at h
          rcases h with h | h
          · exact Or.inl h
          · rw [Nat.shiftLeft_eq, one_mul, Nat.testBit_two_pow,
              decide_eq_true_eq] at h
            exact Or.inr ⟨v, List.mem_cons_self v rest, hv, h⟩
        · obtain ⟨w, hw, hws, hwr⟩ := h
          exact Or.inr ⟨w, List.mem_cons_of_mem v hw, hws, hwr⟩
      · intro h
        rcases h with h | ⟨w, hw, hws, hwr⟩
        · left
          rw [Nat.testBit_lor, h]
          rfl
        · rcases List.mem_cons.mp hw with rfl | hw2
          · left
            rw [Nat.testBit_lor, Nat.shiftLeft_eq, one_mul, Nat.testBit_two_pow]
            simp [hwr]
          · exact Or.inr ⟨w, hw2, hws, hwr⟩
    · rw [if_neg hv]
      constructor
      · intro h
        rcases h with h | ⟨w, hw, hws, hwr⟩
        · exact Or.inl h
        · exact Or.inr ⟨w, List.mem_cons_of_mem v hw, hws, hwr⟩
      · intro h
        rcases h with h | ⟨w, hw, hws, hwr⟩
        · exact Or.inl h
        · rcases List.mem_cons.mp hw with rfl | hw2
          · exact absurd hws hv
          · exact Or.inr ⟨w, hw2, hws, hwr⟩

/-- Bit `r` of the suit mask is set exactly when a card of that suit and
rank is present. -/
theorem testBit_suitMask (cards : List Nat) (s r : Nat) :
    (suitMask cards s).testBit r = true ↔ ∃ v ∈ cards, v / 13 = s ∧ v % 13 = r := by
  rw [suitMask, testBit_suitMask_aux]
  simp

theorem testBit_rankPresent_aux (counts : List Nat) (r : Nat) :
    ∀ (l : List Nat) (acc : Nat),
      (l.foldl (fun acc i => if 0 < counts.getD i 0 then acc ||| (1 <<< i) else acc)
        acc).testBit r = true ↔
      acc.testBit r = true ∨ (r ∈ l ∧ 0 < counts.getD r 0) := by
  intro l
  induction l with
  | nil => intro acc; simp
  | cons i rest ih =>
    intro acc
    rw [List.foldl_cons, ih]
    by_cases hi : 0 < counts.getD i 0
    · rw [if_pos hi]
      constructor
      · intro h
        rcases h with h | ⟨hr, hc⟩
        · rw [Nat.testBit_lor, Bool.or_eq_true] at h
          rcases h with h | h
          · exact Or.inl h
          · rw [Nat.shiftLeft_eq, one_mul, Nat.testBit_two_pow,
              decide_eq_true_eq] at h
            subst h
            exact Or.inr ⟨List.mem_cons_self i rest, hi⟩
        · exact Or.inr ⟨List.mem_cons_of_mem i hr, hc⟩
      · intro h
        rcases h with h | ⟨hr, hc⟩
        · left
          rw [Nat.testBit_lor, h]
          rfl
        · rcases List.mem_cons.mp hr with rfl | hr2
          · left
            rw [Nat.testBit_lor, Nat.shiftLeft_eq, one_mul, Nat.testBit_two_pow]
            simp
          · exact Or.inr ⟨hr2, hc⟩
    · rw [if_neg hi]
      constructor
      · intro h
        rcases h with h | ⟨hr, hc⟩
        · exact Or.inl h
        · exact Or.inr ⟨List.mem_cons_of_mem i hr, hc⟩
      · intro h
        rcases h with h | ⟨hr, hc⟩
        · exact Or.inl h
        · rcases List.mem_cons.mp hr with rfl | hr2
          · exact absurd hc hi
          · exact Or.inr ⟨hr2, hc⟩

/-- Bit `r` of the rank-presence mask is set exactly when rank `r` has a
positive count. -/
theorem testBit_rankPresent (counts : List Nat) (r : Nat) (hr : r < 13) :
    (rankPresent counts).testBit r = true ↔ 0 < counts.getD r 0 := by
  rw [rankPresent, testBit_rankPresent_aux]
  simp [List.mem_range, hr]

/-- Entry `r` of the rank-count array counts the cards of rank `r`. -/
theorem rankCounts_getD (cards : List Nat) {r : Nat} (hr : r < 13) :
    (rankCounts cards).getD r 0 = cards.countP (fun v => v % 13 = r) := by
  rw [rankCounts, List.getD_eq_getElem?_getD, List.getElem?_map]
  rw [List.getElem?_range hr]
  rfl

theorem sum_map_add_nat (l : List Nat) (f g : Nat → Nat) :
    (l.map (fun x => f x + g x)).sum = (l.map f).sum + (l.map g).sum := by
  induction l with
  | nil => rfl
  | cons a rest ih => simp [ih]; omega

theorem sum_map_indicator {n j : Nat} (hj : j < n) :
    ((List.range n).map (fun r => if j = r then 1 else 0)).sum = 1 := by
  induction n with
  | zero => omega
  | succ n ih =>
    rw [List.range_succ, List.map_append, List.sum_append]
    by_cases hjn : j < n
    · rw [ih hjn]
      simp
      omega
    · have hj2 : j = n := by omega
      subst hj2
      have hz : ((List.range j).map (fun r => if j = r then 1 else 0)).sum = 0 := by
        apply List.sum_eq_zero
        intro x hx
        obtain ⟨r, hr, rfl⟩ := List.mem_map.mp hx
        rw [List.mem_range] at hr
        simp
        omega
      rw [hz]
      simp

/-- The rank counts of a card list sum to its length. -/
theorem rankCounts_sum (cards : List Nat) (hv : ∀ v ∈ cards, v < 52) :
    (rankCounts cards).sum = cards.length := by
  rw [rankCounts]
  induction cards with
  | nil => simp
  | cons v rest ih =>
    have hvr : ∀ w ∈ rest, w < 52 := fun w hw => hv w (List.mem_cons_of_mem v hw)
    have hmap : (List.range 13).map (fun r => (v :: rest).countP (fun w => w % 13 = r)) =
        (List.range 13).map (fun r => rest.countP (fun w => w % 13 = r) +
          if v % 13 = r then 1 else 0) := by
      apply List.map_congr_left
      intro r _
      rw [List.countP_cons]
      simp
    rw [hmap, sum_map_add_nat, ih hvr]
    have hmod : v % 13 < 13 := Nat.mod_lt v (by norm_num)
    rw [sum_map_indicator hmod]
    simp

theorem scanStep_quad {c : Nat} (i : Nat) (s : ScanSt) (hc : c ≠ 4) :
    (scanStep c i s).quad = s.quad := by
  rw [scanStep]
  split_ifs <;> first | rfl | exact absurd (by assumption) hc

/-- If no processed rank has count four, the quad slot is untouched. -/
theorem scanDown_quad (counts : List Nat) :
    ∀ (k : Nat) (s : ScanSt), (∀ r, r < k → counts.getD r 0 ≠ 4) →
      (scanDown counts k s).quad = s.quad := by
  intro k
  induction k with
  | zero => intro s _; rfl
  | succ k ih =>
    intro s h
    rw [scanDown, ih _ (fun r hr => h r (by omega)),
      scanStep_quad k s (h k (by omega))]

theorem scanStep_trips_cases (c i : Nat) (s : ScanSt) :
    (scanStep c i s).trips = s.trips ∨
      (c = 3 ∧ s.trips = 255 ∧ (scanStep c i s).trips = i) := by
  rw [scanStep]
  split_ifs <;> simp_all

theorem scanStep_pairs_cases (c i : Nat) (s : ScanSt) :
    (scanStep c i s).pairs = s.pairs ∨
      ((scanStep c i s).pairs = s.pairs ++ [i] ∧
        (c = 2 ∨ (c = 3 ∧ s.trips ≠ 255))) := by
  rw [scanStep]
  split_ifs <;> simp_all

/-- Scan invariant: the trips slot names a rank with count three, and every
pair entry names a rank with count two, or a second count-three rank
distinct from the trips rank. -/
theorem scanDown_pairs_inv (counts : List Nat) :
    ∀ (k : Nat) (s : ScanSt), k ≤ 13 →
      (s.trips = 255 ∨ (k ≤ s.trips ∧ s.trips < 13 ∧ counts.getD s.trips 0 = 3)) →
      (∀ p ∈ s.pairs, p < 13 ∧ (counts.getD p 0 = 2 ∨
        (counts.getD p 0 = 3 ∧ s.trips ≠ 255 ∧ p ≠ s.trips))) →
      ((scanDown counts k s).trips = 255 ∨
        ((scanDown counts k s).trips < 13 ∧
          counts.getD (scanDown counts k s).trips 0 = 3)) ∧
      (∀ p ∈ (scanDown counts k s).pairs, p < 13 ∧ (counts.getD p 0 = 2 ∨
        (counts.getD p 0 = 3 ∧ p ≠ (scanDown counts k s).trips))) := by
  intro k
  induction k with
  | zero =>
    intro s _ htr hpr
    refine ⟨?_, ?_⟩
    · rcases htr with h | h
      · exact Or.inl h
      · exact Or.inr ⟨h.2.1, h.2.2⟩
    · intro p hp
      obtain ⟨h1, h2⟩ := hpr p hp
      refine ⟨h1, ?_⟩
      rcases h2 with h | h
      · exact Or.inl h
      · exact Or.inr ⟨h.1, h.2.2⟩
  | succ k ih =>
    intro s hk htr hpr
    rw [scanDown]
    apply ih _ (by omega)
    · rcases scanStep_trips_cases (counts.getD k 0) k s with heq | ⟨hc, h255, heq⟩
      · rw [heq]
        rcases htr with h | h
        · exact Or.inl h
        · exact Or.inr ⟨by omega, h.2.1, h.2.2⟩
      · rw [heq]
        exact Or.inr ⟨le_refl k, by omega, hc⟩
    · intro p hp
      rcases scanStep_pairs_cases (counts.getD k 0) k s with heqp | ⟨heqp, hsrc⟩
      · rw [heqp] at hp
        obtain ⟨h1, h2⟩ := hpr p hp
        refine ⟨h1, ?_⟩
        rcases h2 with h | ⟨h3, htne, hpne⟩
        · exact Or.inl h
        · rcases scanStep_trips_cases (counts.getD k 0) k s with heqt | ⟨_, h255, _⟩
          · rw [heqt]
            exact Or.inr ⟨h3, htne, hpne⟩
          · exact absurd h255 htne
      · rw [heqp] at hp
        rcases List.mem_append.mp hp with hmem | hmem
        · obtain ⟨h1, h2⟩ := hpr p hmem
          refine ⟨h1, ?_⟩
          rcases h2 with h | ⟨h3, htne, hpne⟩
          · exact Or.inl h
          · rcases scanStep_trips_cases (counts.getD k 0) k s with heqt | ⟨_, h255, _⟩
            · rw [heqt]
              exact Or.inr ⟨h3, htne, hpne⟩
            · exact absurd h255 htne
        · rw [List.mem_singleton.mp hmem]
          refine ⟨by omega, ?_⟩
          rcases hsrc with hc2 | ⟨hc3, htne⟩
          · exact Or.inl hc2
          · rcases scanStep_trips_cases (counts.getD k 0) k s with heqt | ⟨_, h255, _⟩
            · rw [heqt]
              refine Or.inr ⟨hc3, htne, ?_⟩
              rcases htr with h | h
              · exact absurd h htne
              · omega
            · exact absurd h255 htne

theorem find?_range4 (p : Nat → Bool) {s : Nat} (hs : s < 4) (hps : p s = true)
    (ho : ∀ s2, s2 < 4 → s2 ≠ s → p s2 = false) :
    (List.range 4).find? p = some s := by
  have h4 : List.range 4 = [0, 1, 2, 3] := rfl
  rw [h4]
  interval_cases s
  · rw [List.find?_cons_of_pos _ hps]
  · rw [List.find?_cons_of_neg _ (by simp [ho 0 (by omega) (by omega)]),
      List.find?_cons_of_pos _ hps]
  · rw [List.find?_cons_of_neg _ (by simp [ho 0 (by omega) (by omega)]),
      List.find?_cons_of_neg _ (by simp [ho 1 (by omega) (by omega)]),
      List.find?_cons_of_pos _ hps]
  · rw [List.find?_cons_of_neg _ (by simp [ho 0 (by omega) (by omega)]),
      List.find?_cons_of_neg _ (by simp [ho 1 (by omega) (by omega)]),
      List.find?_cons_of_neg _ (by simp [ho 2 (by omega) (by omega)]),
      List.find?_cons_of_pos _ hps]

theorem find?_range4_none (p : Nat → Bool) (ho : ∀ s2, s2 < 4 → p s2 = false) :
    (List.range 4).find? p = none := by
  rw [List.find?_eq_none]
  intro x hx
  rw [List.mem_range] at hx
  simp [ho x hx]

theorem find?_rev9_top (p : Nat → Bool) (hp : p 8 = true) :
    ((List.range 9).reverse).find? p = some 8 := by
  have h9 : (List.range 9).reverse = 8 :: [7, 6, 5, 4, 3, 2, 1, 0] := rfl
  rw [h9, List.find?_cons_of_pos _ hp]

theorem find?_rev9_none (p : Nat → Bool) (ho : ∀ i, i < 9 → p i = false) :
    ((List.range 9).reverse).find? p = none := by
  rw [List.find?_eq_none]
  intro x hx
  rw [List.mem_reverse, List.mem_range] at hx
  simp [ho x hx]

theorem card_div_13 {s r : Nat} (hr : r < 13) : (13 * s + r) / 13 = s := by
  rw [Nat.mul_add_div (by norm_num)]
  omega

theorem card_mod_13 {s r : Nat} (hr : r < 13) : (13 * s + r) % 13 = r := by
  rw [Nat.mul_add_mod]
  omega

theorem popcount_suitMask_le (cards : List Nat) (s : Nat) :
    popcount (suitMask cards s) ≤ cards.countP (fun v => v / 13 = s) := by
  rw [suitMask]
  suffices h : ∀ (l : List Nat) (acc : Nat),
      popcount (l.foldl
          (fun acc v => if v / 13 = s then acc ||| (1 <<< (v % 13)) else acc) acc) ≤
        popcount acc + l.countP (fun v => v / 13 = s) by
    have h0 : popcount 0 = 0 := rfl
    have := h cards 0
    omega
  intro l
  induction l with
  | nil => intro acc; simp
  | cons v rest ih =>
    intro acc
    by_cases hv : v / 13 = s
    · rw [List.foldl_cons, if_pos hv, List.countP_cons_of_pos _ _ (by simp [hv])]
      have h1 := ih (acc ||| (1 <<< (v % 13)))
      have h2 : popcount (acc ||| (1 <<< (v % 13))) ≤ popcount acc + 1 := by
        have h3 := popcount_or_le acc (1 <<< (v % 13))
        rw [popcount_one_shift (show v % 13 < 16 by
          have := Nat.mod_lt v (show 0 < 13 by norm_num)
          omega)] at h3
        exact h3
      omega
    · rw [List.foldl_cons, if_neg hv, List.countP_cons_of_neg _ _ (by simp [hv])]
      exact ih acc

theorem countP_suit_big {cards : List Nat} {s : Nat} (five : List Nat)
    (hsub : five ⊆ cards) (hnodup : five.Nodup) (hlen : five.length = 5)
    (hsuit : ∀ v ∈ five, v / 13 = s) :
    5 ≤ cards.countP (fun v => v / 13 = s) := by
  have h : five.length ≤ cards.countP (fun v => decide (v / 13 = s)) :=
    countP_ge_of_sub hsub hnodup (fun x hx => by simpa using hsuit x hx)
  omega

theorem countP_disjoint_le (p q : Nat → Bool) (hdisj : ∀ x, p x = true → q x = true → False) :
    ∀ l : List Nat, l.countP p + l.countP q ≤ l.length := by
  intro l
  induction l with
  | nil => simp
  | cons a rest ih =>
    rw [List.countP_cons, List.countP_cons, List.length_cons]
    by_cases hp : p a = true
    · by_cases hq : q a = true
      · exact (hdisj a hp hq).elim
      · rw [if_pos hp, if_neg hq]
        omega
    · rw [if_neg hp]
      split <;> omega

theorem countP_suit_other {cards : List Nat} {s s2 : Nat} (hne : s2 ≠ s)
    (hbig : 5 ≤ cards.countP (fun v => v / 13 = s)) (hlen : cards.length = 7) :
    cards.countP (fun v => v / 13 = s2) ≤ 2 := by
  have h := countP_disjoint_le (fun v => decide (v / 13 = s))
    (fun v => decide (v / 13 = s2))
    (fun x hx hx2 => by
      rw [decide_eq_true_eq] at hx hx2
      exact hne (by omega)) cards
  omega

theorem le_sum_map_of_one_le (f : Nat → Nat) :
    ∀ l : List Nat, (∀ x ∈ l, 1 ≤ f x) → l.length ≤ (l.map f).sum := by
  intro l
  induction l with
  | nil => simp
  | cons a rest ih =>
    intro h
    rw [List.map_cons, List.sum_cons, List.length_cons]
    have h1 := h a (List.mem_cons_self a rest)
    have h2 := ih (fun x hx => h x (List.mem_cons_of_mem a hx))
    omega

theorem sum_map_mem_bound (f : Nat → Nat) :
    ∀ (l : List Nat) (x : Nat), x ∈ l → (∀ y ∈ l, 1 ≤ f y) →
      l.length - 1 + f x ≤ (l.map f).sum := by
  intro l
  induction l with
  | nil => intro x hx; cases hx
  | cons a rest ih =>
    intro x hx h1
    rw [List.map_cons, List.sum_cons, List.length_cons]
    rcases List.mem_cons.mp hx with rfl | hmem
    · have := le_sum_map_of_one_le f rest (fun y hy => h1 y (List.mem_cons_of_mem x hy))
      omega
    · have ha := h1 a (List.mem_cons_self a rest)
      have := ih x hmem (fun y hy => h1 y (List.mem_cons_of_mem a hy))
      omega

theorem sum_map_mem2_bound (f : Nat → Nat) :
    ∀ (l : List Nat) (x y : Nat), x ∈ l → y ∈ l → x ≠ y → (∀ z ∈ l, 1 ≤ f z) →
      l.length - 2 + f x + f y ≤ (l.map f).sum := by
  intro l
  induction l with
  | nil => intro x y hx _ _ _; cases hx
  | cons a rest ih =>
    intro x y hx hy hxy h1
    rw [List.map_cons, List.sum_cons, List.length_cons]
    rcases List.mem_cons.mp hx with rfl | hxm
    · have hym : y ∈ rest := by
        rcases List.mem_cons.mp hy with rfl | h
        · exact absurd rfl hxy
        · exact h
      have := sum_map_mem_bound f rest y hym (fun z hz => h1 z (List.mem_cons_of_mem x hz))
      omega
    · rcases List.mem_cons.mp hy with rfl | hym
      · have := sum_map_mem_bound f rest x hxm (fun z hz => h1 z (List.mem_cons_of_mem y hz))
        omega
      · have ha := h1 a (List.mem_cons_self a rest)
        have := ih x y hxm hym hxy (fun z hz => h1 z (List.mem_cons_of_mem a hz))
        omega

theorem sum_map_indicator_nodup (x : Nat) :
    ∀ rs : List Nat, rs.Nodup → (rs.map (fun r => if x = r then 1 else 0)).sum ≤ 1 := by
  intro rs
  induction rs with
  | nil => simp
  | cons a rest ih =>
    intro hnd
    rw [List.map_cons, List.sum_cons]
    have hnd2 := List.nodup_cons.mp hnd
    by_cases hxa : x = a
    · subst hxa
      have hz : (rest.map (fun r => if x = r then 1 else 0)).sum = 0 := by
        apply List.sum_eq_zero
        intro n hn
        obtain ⟨r, hr, rfl⟩ := List.mem_map.mp hn
        have hne : x ≠ r := fun h => hnd2.1 (h ▸ hr)
        simp [hne]
      rw [hz]
      simp
    · rw [if_neg hxa]
      have := ih hnd2.2
      omega

/-- The per-rank card counts over any set of distinct ranks sum to at most
the number of cards (each card has exactly one rank). -/
theorem countP_ranks_le (rs : List Nat) (hnodup : rs.Nodup) :
    ∀ all : List Nat,
      (rs.map (fun r => all.countP (fun v => v % 13 = r))).sum ≤ all.length := by
  intro all
  induction all with
  | nil => simp
  | cons v tail ih =>
    have hmap : rs.map (fun r => (v :: tail).countP (fun w => w % 13 = r)) =
        rs.map (fun r => tail.countP (fun w => w % 13 = r) +
          if v % 13 = r then 1 else 0) := by
      apply List.map_congr_left
      intro r _
      rw [List.countP_cons]
      simp
    rw [List.length_cons, hmap, sum_map_add_nat]
    have hind := sum_map_indicator_nodup (v % 13) rs hnodup
    omega

/-- Seven cards with five distinct ranks present cannot contain four of a
kind. -/
theorem no_quad_of_five (all ps : List Nat) (hlen : all.length = 7)
    (hnodup : ps.Nodup) (hlen5 : ps.length = 5)
    (hpres : ∀ p ∈ ps, 1 ≤ all.countP (fun v => v % 13 = p)) :
    ∀ r, all.countP (fun v => v % 13 = r) ≠ 4 := by
  intro r h4
  by_cases hr : r ∈ ps
  · have hb : ps.length - 1 + all.countP (fun v => v % 13 = r) ≤
        (ps.map (fun p => all.countP (fun v => v % 13 = p))).sum :=
      sum_map_mem_bound _ ps r hr hpres
    have hle : (ps.map (fun p => all.countP (fun v => v % 13 = p))).sum ≤ all.length :=
      countP_ranks_le ps hnodup all
    omega
  · have hnd : (r :: ps).Nodup := List.nodup_cons.mpr ⟨hr, hnodup⟩
    have hle : all.countP (fun v => v % 13 = r) +
        (ps.map (fun p => all.countP (fun v => v % 13 = p))).sum ≤ all.length := by
      have h := countP_ranks_le (r :: ps) hnd all
      rw [List.map_cons, List.sum_cons] at h
      exact h
    have hge : ps.length ≤ (ps.map (fun p => all.countP (fun v => v % 13 = p))).sum :=
      le_sum_map_of_one_le _ ps hpres
    omega

/-- Seven cards with five distinct ranks present cannot contain three of a
kind together with a disjoint pair. -/
theorem no_fh_of_five (all ps : List Nat) (hlen : all.length = 7)
    (hnodup : ps.Nodup) (hlen5 : ps.length = 5)
    (hpres : ∀ p ∈ ps, 1 ≤ all.countP (fun v => v % 13 = p)) (T P : Nat)
    (hTP : P ≠ T) (hcT : 3 ≤ all.countP (fun v => v % 13 = T))
    (hcP : 2 ≤ all.countP (fun v => v % 13 = P)) : False := by
  by_cases hT : T ∈ ps <;> by_cases hP : P ∈ ps
  · have hb : ps.length - 2 + all.countP (fun v => v % 13 = T) +
        all.countP (fun v => v % 13 = P) ≤
        (ps.map (fun p => all.countP (fun v => v % 13 = p))).sum :=
      sum_map_mem2_bound _ ps T P hT hP (fun h => hTP h.symm) hpres
    have hle : (ps.map (fun p => all.countP (fun v => v % 13 = p))).sum ≤ all.length :=
      countP_ranks_le ps hnodup all
    omega
  · have hnd : (P :: ps).Nodup := List.nodup_cons.mpr ⟨hP, hnodup⟩
    have hle : all.countP (fun v => v % 13 = P) +
        (ps.map (fun p => all.countP (fun v => v % 13 = p))).sum ≤ all.length := by
      have h := countP_ranks_le (P :: ps) hnd all
      rw [List.map_cons, List.sum_cons] at h
      exact h
    have hb : ps.length - 1 + all.countP (fun v => v % 13 = T) ≤
        (ps.map (fun p => all.countP (fun v => v % 13 = p))).sum :=
      sum_map_mem_bound _ ps T hT hpres
    omega
  · have hnd : (T :: ps).Nodup := List.nodup_cons.mpr ⟨hT, hnodup⟩
    have hle : all.countP (fun v => v % 13 = T) +
        (ps.map (fun p => all.countP (fun v => v % 13 = p))).sum ≤ all.length := by
      have h := countP_ranks_le (T :: ps) hnd all
      rw [List.map_cons, List.sum_cons] at h
      exact h
    have hb : ps.length - 1 + all.countP (fun v => v % 13 = P) ≤
        (ps.map (fun p => all.countP (fun v => v % 13 = p))).sum :=
      sum_map_mem_bound _ ps P hP hpres
    omega
  · have hnd : (T :: P :: ps).Nodup := by
      rw [List.nodup_cons, List.nodup_cons]
      refine ⟨?_, hP, hnodup⟩
      rw [List.mem_cons]
      rintro (h | h)
      · exact hTP h.symm
      · exact hT h
    have hle : all.countP (fun v => v % 13 = T) + (all.countP (fun v => v % 13 = P) +
        (ps.map (fun p => all.countP (fun v => v % 13 = p))).sum) ≤ all.length := by
      have h := countP_ranks_le (T :: P :: ps) hnd all
      rw [List.map_cons, List.map_cons, List.sum_cons, List.sum_cons] at h
      exact h
    have hge : ps.length ≤ (ps.map (fun p => all.countP (fun v => v % 13 = p))).sum :=
      le_sum_map_of_one_le _ ps hpres
    omega

/-- A 7-card hand holding the ace-high straight flush of suit `s` evaluates
to rank 1. -/
theorem eval_royal_flush (board hand : List Nat) (s : Nat)
    (hv : ValidInput board hand) (hs : s < 4)
    (hmem : ∀ r, r < 13 → 8 ≤ r → (13 * s + r) ∈ board ++ hand) :
    evaluate_7cards board hand = 1 := by
  have hlen : (board ++ hand).length = 7 := by
    rw [List.length_append, hv.1, hv.2.1]
  have hbit : ∀ r, 8 ≤ r → r ≤ 12 → (suitMask (board ++ hand) s).testBit r = true := by
    intro r h8 h12
    exact (testBit_suitMask _ _ _).mpr
      ⟨13 * s + r, hmem r (by omega) h8, card_div_13 (by omega), card_mod_13 (by omega)⟩
  have hpc : 5 ≤ popcount (suitMask (board ++ hand) s) := by
    rw [popcount_eq_countP]
    have h5 : ([8, 9, 10, 11, 12] : List Nat).length ≤
        (List.range 16).countP (fun i => (suitMask (board ++ hand) s).testBit i) := by
      apply countP_ge_of_sub (by decide) (by decide)
      intro x hx
      simp only [List.mem_cons, List.not_mem_nil, or_false] at hx
      rcases hx with rfl | rfl | rfl | rfl | rfl <;>
        exact hbit _ (by omega) (by omega)
    exact h5
  have hcnt5 : 5 ≤ (board ++ hand).countP (fun v => v / 13 = s) := by
    apply countP_suit_big
      ([13 * s + 8, 13 * s + 9, 13 * s + 10, 13 * s + 11, 13 * s + 12] : List Nat)
    · intro x hx
      simp only [List.mem_cons, List.not_mem_nil, or_false] at hx
      rcases hx with rfl | rfl | rfl | rfl | rfl <;>
        exact hmem _ (by omega) (by omega)
    · simp only [List.nodup_cons, List.mem_cons, List.not_mem_nil, or_false,
        List.nodup_nil, and_true, not_or, not_false_eq_true, true_and]
      omega
    · rfl
    · intro v hv2
      simp only [List.mem_cons, List.not_mem_nil, or_false] at hv2
      rcases hv2 with rfl | rfl | rfl | rfl | rfl <;> exact card_div_13 (by omega)
  have hfind : (List.range 4).find?
      (fun s2 => decide (5 ≤ popcount (suitMask (board ++ hand) s2))) = some s := by
    apply find?_range4 _ hs
    · simpa using hpc
    · intro s2 h4 hne
      have hle2 := countP_suit_other hne hcnt5 hlen
      have hle3 := popcount_suitMask_le (board ++ hand) s2
      simp only [decide_eq_false_iff_not]
      omega
  have heval : evaluate_7cards board hand =
      best_flush_hand_7 (suitMask (board ++ hand) s) := by
    simp only [evaluate_7cards]
    rw [hfind]
  have hw8 : suitMask (board ++ hand) s &&& (31 <<< 8) = 31 <<< 8 := by
    apply land_eq_self_of_bits
    intro b hb
    rw [testBit_window] at hb
    exact hbit b (by omega) (by omega)
  have hfind8 : ((List.range 9).reverse).find?
      (fun i => decide (suitMask (board ++ hand) s &&& (31 <<< i) = 31 <<< i)) =
      some 8 := find?_rev9_top _ (by simp only [decide_eq_true_eq]; exact hw8)
  rw [heval, best_flush_hand_7, hfind8]
  show flushTableEntry (31 <<< 8) = 1
  decide

/-- A 7-card hand whose suit-`s` cards include the wheel straight flush but
form no higher straight flush evaluates to rank 10. -/
theorem eval_wheel_sf (board hand : List Nat) (s : Nat)
    (hv : ValidInput board hand) (hs : s < 4)
    (hmem : ∀ r, r < 13 → r < 4 ∨ r = 12 → (13 * s + r) ∈ board ++ hand)
    (hnw : ∀ i, i < 9 → suitMask (board ++ hand) s &&& (31 <<< i) ≠ 31 <<< i) :
    evaluate_7cards board hand = 10 := by
  have hlen : (board ++ hand).length = 7 := by
    rw [List.length_append, hv.1, hv.2.1]
  have hbit : ∀ r, r < 4 ∨ r = 12 → (suitMask (board ++ hand) s).testBit r = true := by
    intro r hr
    exact (testBit_suitMask _ _ _).mpr
      ⟨13 * s + r, hmem r (by omega) hr, card_div_13 (by omega), card_mod_13 (by omega)⟩
  have hpc : 5 ≤ popcount (suitMask (board ++ hand) s) := by
    rw [popcount_eq_countP]
    have h5 : ([0, 1, 2, 3, 12] : List Nat).length ≤
        (List.range 16).countP (fun i => (suitMask (board ++ hand) s).testBit i) := by
      apply countP_ge_of_sub (by decide) (by decide)
      intro x hx
      simp only [List.mem_cons, List.not_mem_nil, or_false] at hx
      rcases hx with rfl | rfl | rfl | rfl | rfl <;> exact hbit _ (by omega)
    exact h5
  have hcnt5 : 5 ≤ (board ++ hand).countP (fun v => v / 13 = s) := by
    apply countP_suit_big
      ([13 * s + 0, 13 * s + 1, 13 * s + 2, 13 * s + 3, 13 * s + 12] : List Nat)
    · intro x hx
      simp only [List.mem_cons, List.not_mem_nil, or_false] at hx
      rcases hx with rfl | rfl | rfl | rfl | rfl <;>
        exact hmem _ (by omega) (by omega)
    · simp only [List.nodup_cons, List.mem_cons, List.not_mem_nil, or_false,
        List.nodup_nil, and_true, not_or, not_false_eq_true, true_and]
      omega
    · rfl
    · intro v hv2
      simp only [List.mem_cons, List.not_mem_nil, or_false] at hv2
      rcases hv2 with rfl | rfl | rfl | rfl | rfl <;> exact card_div_13 (by omega)
  have hfind : (List.range 4).find?
      (fun s2 => decide (5 ≤ popcount (suitMask (board ++ hand) s2))) = some s := by
    apply find?_range4 _ hs
    · simpa using hpc
    · intro s2 h4 hne
      have hle2 := countP_suit_other hne hcnt5 hlen
      have hle3 := popcount_suitMask_le (board ++ hand) s2
      simp only [decide_eq_false_iff_not]
      omega
  have heval : evaluate_7cards board hand =
      best_flush_hand_7 (suitMask (board ++ hand) s) := by
    simp only [evaluate_7cards]
    rw [hfind]
  have hfindw : ((List.range 9).reverse).find?
      (fun i => decide (suitMask (board ++ hand) s &&& (31 <<< i) = 31 <<< i)) =
      none := by
    apply find?_rev9_none
    intro i hi
    simp only [decide_eq_false_iff_not]
    exact hnw i hi
  have hwheel : suitMask (board ++ hand) s &&& 4111 = 4111 := by
    apply land_eq_self_of_bits
    intro b hb
    rw [testBit_wheel] at hb
    exact hbit b hb
  rw [heval, best_flush_hand_7, hfindw]
  show (if suitMask (board ++ hand) s &&& 4111 = 4111 then flushTableEntry 4111
    else flushTableEntry (keepTop5 16 (suitMask (board ++ hand) s))) = 10
  rw [if_pos hwheel]
  decide

/-- A 7-card hand with no flush suit and all five broadway ranks present
evaluates to the ace-high straight rank 1600. -/
theorem eval_ace_straight (board hand : List Nat)
    (hv : ValidInput board hand)
    (hnf : ∀ s2, s2 < 4 → (board ++ hand).countP (fun v => v / 13 = s2) ≤ 4)
    (hpres : ∀ r, r < 13 → 8 ≤ r → 1 ≤ (board ++ hand).countP (fun v => v % 13 = r)) :
    evaluate_7cards board hand = 1600 := by
  have hlen : (board ++ hand).length = 7 := by
    rw [List.length_append, hv.1, hv.2.1]
  have hfindn : (List.range 4).find?
      (fun s2 => decide (5 ≤ popcount (suitMask (board ++ hand) s2))) = none := by
    apply find?_range4_none
    intro s2 hs2
    have hle3 := popcount_suitMask_le (board ++ hand) s2
    have hle2 := hnf s2 hs2
    simp only [decide_eq_false_iff_not]
    omega
  have heval : evaluate_7cards board hand =
      best_nonflush_hand_7 (rankCounts (board ++ hand)) := by
    simp only [evaluate_7cards]
    rw [hfindn]
  have hpres5 : ∀ p ∈ ([8, 9, 10, 11, 12] : List Nat),
      1 ≤ (board ++ hand).countP (fun v => v % 13 = p) := by
    intro p hp
    simp only [List.mem_cons, List.not_mem_nil, or_false] at hp
    rcases hp with rfl | rfl | rfl | rfl | rfl <;> exact hpres _ (by omega) (by omega)
  have hq : (scanDown (rankCounts (board ++ hand)) 13 scanInit).quad = 255 := by
    apply scanDown_quad
    intro r hr
    rw [rankCounts_getD _ hr]
    exact no_quad_of_five _ [8, 9, 10, 11, 12] hlen (by decide) rfl hpres5 r
  have hfh : ¬((scanDown (rankCounts (board ++ hand)) 13 scanInit).trips ≠ 255 ∧
      0 < (scanDown (rankCounts (board ++ hand)) 13 scanInit).pairs.length) := by
    rintro ⟨htne, hplen⟩
    obtain ⟨htr, hpr⟩ := scanDown_pairs_inv (rankCounts (board ++ hand)) 13 scanInit
      (by omega) (Or.inl rfl) (by intro p hp; cases hp)
    rcases htr with h255 | ⟨ht13, hct⟩
    · exact htne h255
    · obtain ⟨p0, hp0⟩ := List.exists_mem_of_ne_nil _ (List.length_pos.mp hplen)
      obtain ⟨hp13, hpcase⟩ := hpr p0 hp0
      rw [rankCounts_getD _ ht13] at hct
      rcases hpcase with hc2 | ⟨hc3, hne⟩
      · rw [rankCounts_getD _ hp13] at hc2
        exact no_fh_of_five _ [8, 9, 10, 11, 12] hlen (by decide) rfl hpres5
          ((scanDown (rankCounts (board ++ hand)) 13 scanInit).trips) p0
          (fun h => by rw [h] at hc2; omega) (by omega) (by omega)
      · rw [rankCounts_getD _ hp13] at hc3
        exact no_fh_of_five _ [8, 9, 10, 11, 12] hlen (by decide) rfl hpres5
          ((scanDown (rankCounts (board ++ hand)) 13 scanInit).trips) p0
          hne (by omega) (by omega)
  have hbitp : ∀ b, 8 ≤ b → b ≤ 12 →
      (rankPresent (rankCounts (board ++ hand))).testBit b = true := by
    intro b h8 h12
    rw [testBit_rankPresent _ _ (by omega), rankCounts_getD _ (by omega)]
    exact hpres b (by omega) h8
  have hw8 : rankPresent (rankCounts (board ++ hand)) &&& (31 <<< 8) = 31 <<< 8 := by
    apply land_eq_self_of_bits
    intro b hb
    rw [testBit_window] at hb
    exact hbitp b (by omega) (by omega)
  have hfind8 : ((List.range 9).reverse).find?
      (fun i => decide (rankPresent (rankCounts (board ++ hand)) &&& (31 <<< i) =
        31 <<< i)) = some 8 :=
    find?_rev9_top _ (by simp only [decide_eq_true_eq]; exact hw8)
  rw [heval]
  simp only [best_nonflush_hand_7]
  rw [if_neg (fun h => h hq), if_neg hfh, hfind8]
  rfl

/-- A 7-card hand with no flush suit, all five wheel ranks present, and no
five consecutive ranks present evaluates to the wheel straight rank 1609. -/
theorem eval_wheel_straight (board hand : List Nat)
    (hv : ValidInput board hand)
    (hnf : ∀ s2, s2 < 4 → (board ++ hand).countP (fun v => v / 13 = s2) ≤ 4)
    (hpres : ∀ r, r < 13 → r < 4 ∨ r = 12 →
      1 ≤ (board ++ hand).countP (fun v => v % 13 = r))
    (hgap : ∀ i, i < 9 →
      rankPresent (rankCounts (board ++ hand)) &&& (31 <<< i) ≠ 31 <<< i) :
    evaluate_7cards board hand = 1609 := by
  have hlen : (board ++ hand).length = 7 := by
    rw [List.length_append, hv.1, hv.2.1]
  have hfindn : (List.range 4).find?
      (fun s2 => decide (5 ≤ popcount (suitMask (board ++ hand) s2))) = none := by
    apply find?_range4_none
    intro s2 hs2
    have hle3 := popcount_suitMask_le (board ++ hand) s2
    have hle2 := hnf s2 hs2
    simp only [decide_eq_false_iff_not]
    omega
  have heval : evaluate_7cards board hand =
      best_nonflush_hand_7 (rankCounts (board ++ hand)) := by
    simp only [evaluate_7cards]
    rw [hfindn]
  have hpres5 : ∀ p ∈ ([0, 1, 2, 3, 12] : List Nat),
      1 ≤ (board ++ hand).countP (fun v => v % 13 = p) := by
    intro p hp
    simp only [List.mem_cons, List.not_mem_nil, or_false] at hp
    rcases hp with rfl | rfl | rfl | rfl | rfl <;> exact hpres _ (by omega) (by omega)
  have hq : (scanDown (rankCounts (board ++ hand)) 13 scanInit).quad = 255 := by
    apply scanDown_quad
    intro r hr
    rw [rankCounts_getD _ hr]
    exact no_quad_of_five _ [0, 1, 2, 3, 12] hlen (by decide) rfl hpres5 r
  have hfh : ¬((scanDown (rankCounts (board ++ hand)) 13 scanInit).trips ≠ 255 ∧
      0 < (scanDown (rankCounts (board ++ hand)) 13 scanInit).pairs.length) := by
    rintro ⟨htne, hplen⟩
    obtain ⟨htr, hpr⟩ := scanDown_pairs_inv (rankCounts (board ++ hand)) 13 scanInit
      (by omega) (Or.inl rfl) (by intro p hp; cases hp)
    rcases htr with h255 | ⟨ht13, hct⟩
    · exact htne h255
    · obtain ⟨p0, hp0⟩ := List.exists_mem_of_ne_nil _ (List.length_pos.mp hplen)
      obtain ⟨hp13, hpcase⟩ := hpr p0 hp0
      rw [rankCounts_getD _ ht13] at hct
      rcases hpcase with hc2 | ⟨hc3, hne⟩
      · rw [rankCounts_getD _ hp13] at hc2
        exact no_fh_of_five _ [0, 1, 2, 3, 12] hlen (by decide) rfl hpres5
          ((scanDown (rankCounts (board ++ hand)) 13 scanInit).trips) p0
          (fun h => by rw [h] at hc2; omega) (by omega) (by omega)
      · rw [rankCounts_getD _ hp13] at hc3
        exact no_fh_of_five _ [0, 1, 2, 3, 12] hlen (by decide) rfl hpres5
          ((scanDown (rankCounts (board ++ hand)) 13 scanInit).trips) p0
          hne (by omega) (by omega)
  have hfindw : ((List.range 9).reverse).find?
      (fun i => decide (rankPresent (rankCounts (board ++ hand)) &&& (31 <<< i) =
        31 <<< i)) = none := by
    apply find?_rev9_none
    intro i hi
    simp only [decide_eq_false_iff_not]
    exact hgap i hi
  have hbitp : ∀ b, b < 4 ∨ b = 12 →
      (rankPresent (rankCounts (board ++ hand))).testBit b = true := by
    intro b hb
    rw [testBit_rankPresent _ _ (by omega), rankCounts_getD _ (by omega)]
    exact hpres b (by omega) hb
  have hwheel : rankPresent (rankCounts (board ++ hand)) &&& 4111 = 4111 := by
    apply land_eq_self_of_bits
    intro b hb
    rw [testBit_wheel] at hb
    exact hbitp b hb
  rw [heval]
  simp only [best_nonflush_hand_7]
  rw [if_neg (fun h => h hq), if_neg hfh, hfindw, if_pos hwheel]

/-- C8: the evaluator hits the spec's boundary values: 1 for any valid
7-card hand containing an ace-high straight flush, 10 when the suited cards
form the wheel straight flush and no higher straight flush, 1600 when no
suit flushes and all five broadway ranks are present, and 1609 when no suit
flushes, the five wheel ranks are present and no five consecutive ranks are
present. -/
theorem c8_boundary_values :
    (∀ board hand s, ValidInput board hand → s < 4 →
      (∀ r, r < 13 → 8 ≤ r → (13 * s + r) ∈ board ++ hand) →
      evaluate_7cards board hand = 1) ∧
    (∀ board hand s, ValidInput board hand → s < 4 →
      (∀ r, r < 13 → r < 4 ∨ r = 12 → (13 * s + r) ∈ board ++ hand) →
      (∀ i, i < 9 → suitMask (board ++ hand) s &&& (31 <<< i) ≠ 31 <<< i) →
      evaluate_7cards board hand = 10) ∧
    (∀ board hand, ValidInput board hand →
      (∀ s2, s2 < 4 → (board ++ hand).countP (fun v => v / 13 = s2) ≤ 4) →
      (∀ r, r < 13 → 8 ≤ r → 1 ≤ (board ++ hand).countP (fun v => v % 13 = r)) →
      evaluate_7cards board hand = 1600) ∧
    (∀ board hand, ValidInput board hand →
      (∀ s2, s2 < 4 → (board ++ hand).countP (fun v => v / 13 = s2) ≤ 4) →
      (∀ r, r < 13 → r < 4 ∨ r = 12 →
        1 ≤ (board ++ hand).countP (fun v => v % 13 = r)) →
      (∀ i, i < 9 →
        rankPresent (rankCounts (board ++ hand)) &&& (31 <<< i) ≠ 31 <<< i) →
      evaluate_7cards board hand = 1609) :=
  ⟨eval_royal_flush, eval_wheel_sf, eval_ace_straight, eval_wheel_straight⟩

/-- C8 witness: the four boundary cases applied at concrete hands — a royal
flush in spades, a spade wheel straight flush, an offsuit broadway straight
and an offsuit wheel straight. -/
theorem c8_boundary_values_witness :
    evaluate_7cards [12, 11, 10, 9, 8] [18, 20] = 1 ∧
    evaluate_7cards [12, 0, 1, 2, 3] [20, 21] = 10 ∧
    evaluate_7cards [12, 24, 36, 48, 8] [0, 14] = 1600 ∧
    evaluate_7cards [12, 13, 27, 41, 3] [7, 20] = 1609 :=
  ⟨c8_boundary_values.1 [12, 11, 10, 9, 8] [18, 20] 0 (by decide) (by decide)
      (by decide),
    c8_boundary_values.2.1 [12, 0, 1, 2, 3] [20, 21] 0 (by decide) (by decide)
      (by decide) (by decide),
    c8_boundary_values.2.2.1 [12, 24, 36, 48, 8] [0, 14] (by decide) (by decide)
      (by decide),
    c8_boundary_values.2.2.2 [12, 13, 27, 41, 3] [7, 20] (by decide) (by decide)
      (by decide) (by decide)⟩

theorem sum_map_div (l : List ℚ) (c : ℚ) :
    (l.map (fun x => x / c)).sum = l.sum / c := by
  induction l with
  | nil => simp
  | cons a rest ih => simp [ih, add_div]

theorem sum_replicate_inv {n : Nat} (hn : n ≠ 0) :
    (List.replicate n ((1 : ℚ) / (n : ℚ))).sum = 1 := by
  rw [List.sum_replicate, nsmul_eq_mul]
  have : ((n : ℚ)) ≠ 0 := Nat.cast_ne_zero.mpr hn
  field_simp

/-- C5: regrets are zero-initialized, `update_regrets` floors the post-sum
at zero entrywise (entries beyond the zipped prefix are untouched), and
after any sequence of solver iterations every regret entry is
non-negative. -/
theorem c5_regrets_nonneg :
    (∀ num_nodes apn, ∀ row ∈ (RegretStorage.new num_nodes apn).regrets,
      ∀ x ∈ row, x = 0) ∧
    (∀ (r cf : List ℚ), updateRow r cf =
      (r.zip cf).map (fun rc => max (rc.1 + rc.2) 0) ++ r.drop cf.length) ∧
    (∀ tree evs n slv,
      solverIterate n (CfrSolver.new_with_evs tree evs) = some slv →
      ∀ row ∈ slv.storage.regrets, ∀ x ∈ row, 0 ≤ x) := by
  refine ⟨fun nn apn => (new_storage_zero nn apn).1, updateRow_closed_form, ?_⟩
  intro tree evs n slv h
  refine (solverIterate_nonneg n (CfrSolver.new_with_evs tree evs) slv ?_ ?_ h).1
  · intro row hrow x hx
    rw [(new_storage_zero tree.nodes.length (actionsPerNode tree)).1 row hrow x hx]
  · intro row hrow x hx
    rw [(new_storage_zero tree.nodes.length (actionsPerNode tree)).2 row hrow x hx]

unseal Rat.add Rat.mul Rat.inv Rat.sub in
/-- C5 witness: after one iteration on the 9-node test tree the regret rows
are exactly these non-negative values (the floored negative counterfactuals
are clamped to zero). -/
theorem c5_regrets_nonneg_witness :
    ∀ row ∈ ([[0, 21/8], [0, 5/8], [], [0, 3/4], [], [], [0, 1], [], []] :
      List (List ℚ)), ∀ x ∈ row, 0 ≤ x := by
  have happ := c5_regrets_nonneg.2.2 build_test_tree terminal_ev_table 1
    ⟨build_test_tree,
      ⟨[[0, 21/8], [0, 5/8], [], [0, 3/4], [], [], [0, 1], [], []],
       [[1/2, 1/2], [1/2, 1/2], [], [1/2, 1/2], [], [], [1/2, 1/2], [], []]⟩,
      1, terminal_ev_table⟩ (by decide)
  exact happ

/-- C6: on any row with at least one action, `current_strategy` is a
probability vector (non-negative, summing to one) and is uniform when all
regrets are non-positive; on any reachable solver state, `average_strategy`
is likewise a probability vector, uniform when the strategy-sum total is
non-positive. -/
theorem c6_strategies_probability :
    (∀ (st : RegretStorage) (i : Nat), st.regrets.getD i [] ≠ [] →
      (∀ p ∈ st.current_strategy i, 0 ≤ p) ∧ (st.current_strategy i).sum = 1 ∧
      ((∀ x ∈ st.regrets.getD i [], x ≤ 0) →
        st.current_strategy i =
          List.replicate (st.regrets.getD i []).length
            (1 / ((st.regrets.getD i []).length : ℚ)))) ∧
    (∀ tree evs n slv i,
      solverIterate n (CfrSolver.new_with_evs tree evs) = some slv →
      slv.storage.strategy_sums.getD i [] ≠ [] →
      (∀ p ∈ slv.storage.average_strategy i, 0 ≤ p) ∧
      (slv.storage.average_strategy i).sum = 1 ∧
      ((slv.storage.strategy_sums.getD i []).sum ≤ 0 →
        slv.storage.average_strategy i =
          List.replicate (slv.storage.strategy_sums.getD i []).length
            (1 / ((slv.storage.strategy_sums.getD i []).length : ℚ)))) := by
  constructor
  · intro st i hne
    refine ⟨current_strategy_nonneg st i, ?_, ?_⟩
    · simp only [RegretStorage.current_strategy]
      split
      · exact sum_replicate_inv (by simpa [List.length_eq_zero] using hne)
      · next hns =>
        have hpos := not_le.mp hns
        have hmm : (st.regrets.getD i []).map (fun x => max x 0 /
            ((st.regrets.getD i []).map (fun x => max x 0)).sum) =
            ((st.regrets.getD i []).map (fun x => max x 0)).map
              (fun y => y / ((st.regrets.getD i []).map (fun x => max x 0)).sum) := by
          rw [List.map_map]
          rfl
        rw [hmm, sum_map_div, div_self (ne_of_gt hpos)]
    · intro hall
      simp only [RegretStorage.current_strategy]
      have hzero : ((st.regrets.getD i []).map (fun x => max x 0)).sum = 0 := by
        apply List.sum_eq_zero
        intro y hy
        obtain ⟨x, hx, rfl⟩ := List.mem_map.mp hy
        exact max_eq_right (hall x hx)
      rw [if_pos (le_of_eq hzero)]
  · intro tree evs n slv i hreach hne
    have hinv := solverIterate_nonneg n (CfrSolver.new_with_evs tree evs) slv
      (fun row hrow x hx => le_of_eq
        ((new_storage_zero tree.nodes.length (actionsPerNode tree)).1 row hrow x hx).symm)
      (fun row hrow x hx => le_of_eq
        ((new_storage_zero tree.nodes.length (actionsPerNode tree)).2 row hrow x hx).symm)
      hreach
    have hrownn := getD_row_nonneg hinv.2 i
    refine ⟨?_, ?_, ?_⟩
    · intro p hp
      simp only [RegretStorage.average_strategy] at hp
      split at hp
      · rw [List.eq_of_mem_replicate hp]
        exact one_div_nonneg.mpr (Nat.cast_nonneg _)
      · next hns =>
        obtain ⟨x, hx, rfl⟩ := List.mem_map.mp hp
        exact div_nonneg (hrownn x hx) (le_of_lt (not_le.mp hns))
    · simp only [RegretStorage.average_strategy]
      split
      · exact sum_replicate_inv (by simpa [List.length_eq_zero] using hne)
      · next hns =>
        rw [sum_map_div, div_self (ne_of_gt (not_le.mp hns))]
    · intro htot
      simp only [RegretStorage.average_strategy]
      rw [if_pos htot]

unseal Rat.add Rat.mul Rat.inv Rat.sub in
/-- C6 witness: both parts applied to the freshly initialized storage of the
9-node test tree at infoset 0 (two actions, all regrets zero, so both
strategies are the uniform pair). -/
theorem c6_strategies_probability_witness :
    ((∀ p ∈ (CfrSolver.new build_test_tree).storage.current_strategy 0, 0 ≤ p) ∧
      ((CfrSolver.new build_test_tree).storage.current_strategy 0).sum = 1) ∧
    ((∀ p ∈ (CfrSolver.new build_test_tree).storage.average_strategy 0, 0 ≤ p) ∧
      ((CfrSolver.new build_test_tree).storage.average_strategy 0).sum = 1) := by
  have h1 := c6_strategies_probability.1 (CfrSolver.new build_test_tree).storage 0
    (by decide)
  have h2 := c6_strategies_probability.2 build_test_tree terminal_ev_table 0
    (CfrSolver.new_with_evs build_test_tree terminal_ev_table) 0 rfl (by decide)
  exact ⟨⟨h1.1, h1.2.1⟩, ⟨h2.1, h2.2.1⟩⟩

unseal Rat.add Rat.mul Rat.inv Rat.sub in
/-- C4 witness: the decision-node semantics applied at node 3 of the test
tree (OOP to act over terminals worth 5 and 2) with reaches one half. -/
theorem c4_decision_node_semantics_witness :
    cfr_traverse build_test_tree terminal_ev_table
        (CfrSolver.new build_test_tree).storage 1 2 3 (1/2) (1/2) =
      some (nodeValueSpec
          ((CfrSolver.new build_test_tree).storage.current_strategy 3) [5, 2],
        [] ++ [⟨3,
          cfValuesSpec Player.OOP (1/2) (1/2)
            (nodeValueSpec
              ((CfrSolver.new build_test_tree).storage.current_strategy 3) [5, 2])
            [5, 2],
          (CfrSolver.new build_test_tree).storage.current_strategy 3, 1⟩]) :=
  c4_decision_node_semantics.1 build_test_tree terminal_ev_table
    (CfrSolver.new build_test_tree).storage 1 1 3 3 3 Player.OOP [4, 5]
    [GAction.fold, GAction.call] (1/2) (1/2) [5, 2] [] (by decide) (by decide)

end OracleSolver
